import Mathlib

/-!
Verification of the furigana/ruby text-annotation engine of the
japanese-read-helper repository.  Python strings are modelled as `List Char`
(sequences of Unicode code points); dictionaries keyed by strings are
modelled as functions into `Option`, or as insertion-ordered association
lists where the iteration order matters.  Each definition mirrors one
function of the Python sources (`scripts/furigana_helper.py`,
`scripts/extract-ruby-smart.py`, `scripts/extract-all-ruby.py`,
`scripts/utils/fix-ruby-newlines.py`).
-/

/-- Whitespace characters stripped by Python `str.strip()` (the Unicode
whitespace set, of which the listed characters are the ones that can occur
in text handled here). -/
def pyIsSpace (c : Char) : Bool :=
  c.toNat ∈ [0x20, 0x9, 0xA, 0xB, 0xC, 0xD, 0x1C, 0x1D, 0x1E, 0x1F,
             0x85, 0xA0, 0x1680, 0x2028, 0x2029, 0x202F, 0x205F, 0x3000]
    ∨ (0x2000 ≤ c.toNat ∧ c.toNat ≤ 0x200A)

/-- Python `s.lstrip()`. -/
def pyLstrip (l : List Char) : List Char := l.dropWhile pyIsSpace

/-- Python `s.rstrip()`. -/
def pyRstrip (l : List Char) : List Char := (l.reverse.dropWhile pyIsSpace).reverse

/-- Python `s.strip()`. -/
def pyStrip (l : List Char) : List Char := pyLstrip (pyRstrip l)

/-- `furigana_helper.is_kanji`: CJK ranges U+4E00..U+9FFF and U+3400..U+4DBF. -/
def is_kanji (c : Char) : Bool :=
  (0x4E00 ≤ c.toNat ∧ c.toNat ≤ 0x9FFF) ∨ (0x3400 ≤ c.toNat ∧ c.toNat ≤ 0x4DBF)

/-- The `N4_AND_LOWER_KANJI` set of `furigana_helper.py` (elementary kanji;
duplicates of the Python set literal are harmless here since only
membership is used). -/
def N4_AND_LOWER_KANJI : List Char :=
  ['一', '二', '三', '四', '五', '六', '七', '八', '九', '十', '百', '千', '万',
   '日', '月', '火', '水', '木', '金', '土', '年', '今', '毎', '先', '来', '何', '時', '分', '半',
   '人', '男', '女', '子', '学', '生', '先', '友', '私', '父', '母', '兄', '姉', '弟', '妹', '家', '族',
   '本', '名', '前', '国', '語', '文', '字', '会', '社', '話', '読', '書', '見', '聞', '言', '食', '飲',
   '行', '来', '帰', '入', '出', '会', '休', '立', '座', '歩', '走', '作', '使', '働', '買', '売',
   '大', '小', '多', '少', '高', '安', '低', '長', '短', '新', '古', '若', '明', '暗', '白', '黒',
   '赤', '青', '色', '好', '悪', '元', '気', '有', '無', '便', '利', '不', '正', '間', '違',
   '右', '左', '上', '下', '中', '外', '内', '前', '後', '東', '西', '南', '北', '近', '遠',
   '山', '川', '田', '町', '村', '市', '駅', '校', '店', '車', '道', '門', '室', '開', '閉',
   '天', '雨', '雪', '花', '草', '木', '林', '森', '犬', '猫', '魚', '鳥', '肉', '米', '茶',
   '朝', '昼', '夜', '晩', '午', '早', '遅', '週', '円', '度', '回', '番', '方', '力', '勉', '強',
   '思', '知', '考', '教', '習', '問', '答', '分', '理', '解', '同', '意', '味', '物', '品', '者',
   '手', '足', '目', '耳', '口', '体', '頭', '顔', '心', '声', '電', '話', '写', '真', '切', '持',
   '貸', '借', '送', '返', '起', '寝', '着', '脱', '洗', '待', '取', '付', '始', '終', '住', '度']

/-- `furigana_helper.is_n3_plus_kanji`. -/
def is_n3_plus_kanji (c : Char) : Bool :=
  is_kanji c && c ∉ N4_AND_LOWER_KANJI

/-- `furigana_helper.has_any_n3_plus_kanji`. -/
def has_any_n3_plus_kanji (l : List Char) : Bool :=
  l.any is_n3_plus_kanji

/-- `FuriganaGenerator._get_vowel_for_long_mark`: vowel emitted for the
long-vowel mark, from the row of the previous emitted character. -/
def vowel_for_long_mark (prev : Char) : Char :=
  if prev ∈ ['あ', 'か', 'が', 'さ', 'ざ', 'た', 'だ', 'な', 'は', 'ば', 'ぱ', 'ま', 'や', 'ら', 'わ'] then 'あ'
  else if prev ∈ ['い', 'き', 'ぎ', 'し', 'じ', 'ち', 'ぢ', 'に', 'ひ', 'び', 'ぴ', 'み', 'り'] then 'い'
  else if prev ∈ ['う', 'く', 'ぐ', 'す', 'ず', 'つ', 'づ', 'ぬ', 'ふ', 'ぶ', 'ぷ', 'む', 'ゆ', 'る'] then 'う'
  else if prev ∈ ['え', 'け', 'げ', 'せ', 'ぜ', 'て', 'で', 'ね', 'へ', 'べ', 'ぺ', 'め', 'れ'] then 'い'
  else if prev ∈ ['お', 'こ', 'ご', 'そ', 'ぞ', 'と', 'ど', 'の', 'ほ', 'ぼ', 'ぽ', 'も', 'よ', 'ろ', 'を'] then 'う'
  else if prev ∈ ['ゃ', 'ゅ', 'ょ'] then 'う'
  else if prev = 'ぁ' then 'あ'
  else if prev = 'ぃ' then 'い'
  else if prev = 'ぅ' then 'う'
  else if prev = 'ぇ' then 'い'
  else if prev = 'ぉ' then 'う'
  else 'う'

/-- Worker of `FuriganaGenerator._katakana_to_hiragana`: `acc` is the
`result` list of emitted characters in reverse order (head = most recently
emitted), so `acc.head?` is Python's `result[-1]`; the Python guard
`i > 0 and result` is equivalent to `acc ≠ []` since every iteration
appends exactly one character. -/
def katakana_to_hiragana_aux (pv : Bool) (acc : List Char) : List Char → List Char
  | [] => acc.reverse
  | c :: rest =>
    if c = 'ー' then
      if pv then katakana_to_hiragana_aux pv ('ー' :: acc) rest
      else
        match acc with
        | prev :: _ => katakana_to_hiragana_aux pv (vowel_for_long_mark prev :: acc) rest
        | [] => katakana_to_hiragana_aux pv ('ー' :: acc) rest
    else if 0x30A1 ≤ c.toNat ∧ c.toNat ≤ 0x30F6 then
      katakana_to_hiragana_aux pv (Char.ofNat (c.toNat - 0x60) :: acc) rest
    else
      katakana_to_hiragana_aux pv (c :: acc) rest

/-- `FuriganaGenerator._katakana_to_hiragana text preserve_long_vowel`
(arguments flipped: the flag comes first). -/
def katakana_to_hiragana (pv : Bool) (text : List Char) : List Char :=
  katakana_to_hiragana_aux pv [] text

/-- The plain katakana→hiragana code-point shift (the branch of
`_katakana_to_hiragana` that does not concern the long-vowel mark). -/
def hiraShift (c : Char) : Char :=
  if 0x30A1 ≤ c.toNat ∧ c.toNat ≤ 0x30F6 then Char.ofNat (c.toNat - 0x60) else c

/-- Specification-style restatement of the converter for
`preserveLongVowel = false`: a direct recursion that carries the
previously emitted character, replacing each long-vowel mark by the vowel
of that character's row and passing the mark through when no character has
been emitted yet. -/
def kataToHiraSpec : Option Char → List Char → List Char
  | _, [] => []
  | prev, c :: rest =>
    if c = 'ー' then
      match prev with
      | some p => vowel_for_long_mark p :: kataToHiraSpec (some (vowel_for_long_mark p)) rest
      | none => 'ー' :: kataToHiraSpec (some 'ー') rest
    else hiraShift c :: kataToHiraSpec (some (hiraShift c)) rest

theorem katakana_to_hiragana_aux_false_eq (s : List Char) :
    ∀ acc : List Char,
      katakana_to_hiragana_aux false acc s = acc.reverse ++ kataToHiraSpec acc.head? s := by
  induction s with
  | nil => intro acc; simp [katakana_to_hiragana_aux, kataToHiraSpec]
  | cons c rest ih =>
    intro acc
    by_cases hc : c = 'ー'
    · subst hc
      cases acc with
      | nil => simp [katakana_to_hiragana_aux, kataToHiraSpec, ih]
      | cons prev tl => simp [katakana_to_hiragana_aux, kataToHiraSpec, ih]
    · by_cases hr : 0x30A1 ≤ c.toNat ∧ c.toNat ≤ 0x30F6
      · simp [katakana_to_hiragana_aux, kataToHiraSpec, hc, hr, hiraShift, ih]
      · simp [katakana_to_hiragana_aux, kataToHiraSpec, hc, hr, hiraShift, ih]

theorem katakana_to_hiragana_aux_true_eq (s : List Char) :
    ∀ acc : List Char,
      katakana_to_hiragana_aux true acc s = acc.reverse ++ s.map hiraShift := by
  induction s with
  | nil => intro acc; simp [katakana_to_hiragana_aux]
  | cons c rest ih =>
    intro acc
    by_cases hc : c = 'ー'
    · subst hc
      have hm : hiraShift 'ー' = 'ー' := by decide
      simp [katakana_to_hiragana_aux, ih, hm]
    · by_cases hr : 0x30A1 ≤ c.toNat ∧ c.toNat ≤ 0x30F6
      · simp [katakana_to_hiragana_aux, hc, hr, hiraShift, ih]
      · simp [katakana_to_hiragana_aux, hc, hr, hiraShift, ih]

/-- C2 (counterexample): with `preserveLongVowel = false`, a long-vowel
mark with no preceding character is passed through unchanged, not replaced
by う as the claim states; and after small ぉ the emitted vowel is う, not
the same vowel お. -/
theorem C2_counterexample :
    katakana_to_hiragana false ['ー'] ≠ ['う'] ∧
      katakana_to_hiragana false ['ォ', 'ー'] ≠ ['ぉ', 'お'] := by
  constructor <;> decide

/-- C2 (amended): with `preserveLongVowel = false` the converter behaves as
the direct previous-character-tracking recursion `kataToHiraSpec`: each
long-vowel mark is replaced by the vowel of the row of the immediately
preceding emitted character (a-row→あ, i-row→い, u-row→う, e-row→い,
o-row→う, small ゃ/ゅ/ょ→う, small ぁ/ぃ/ぅ/ぇ/ぉ per table with ぇ→い and
ぉ→う, う for an unrecognized preceding character), and is passed through
unchanged when there is no preceding character; with
`preserveLongVowel = true` every character is converted by the plain
code-point shift, which leaves the long-vowel mark unchanged. -/
theorem C2_amended (s : List Char) :
    katakana_to_hiragana false s = kataToHiraSpec none s ∧
      katakana_to_hiragana true s = s.map hiraShift ∧
      hiraShift 'ー' = 'ー' ∧ vowel_for_long_mark 'ぉ' = 'う' := by
  refine ⟨?_, ?_, by decide, by decide⟩
  · simpa using katakana_to_hiragana_aux_false_eq s []
  · simpa using katakana_to_hiragana_aux_true_eq s []

/-! ## FuriganaAnnotator (`FuriganaGenerator.add_furigana`) -/

/-- One tokenizer token: surface form plus (possibly absent) katakana
reading.  An empty MeCab reading field is falsy in the Python code and
behaves like an absent one; it is kept as `some []` and tested for
emptiness where the code tests truthiness. -/
structure Token where
  surface : List Char
  reading : Option (List Char)
deriving DecidableEq

/-- The name dictionary consulted before the tokenizer reading. -/
def NameDict : Type := List Char → Option (List Char)

/-- One output unit of the annotator: either plain text or a ruby span. -/
inductive Span where
  | plain (s : List Char)
  | ruby (base rt : List Char)
deriving DecidableEq

/-- Base text of a span: a ruby span replaced by its base surface. -/
def Span.baseText : Span → List Char
  | .plain s => s
  | .ruby b _ => b

/-- The `elif len(parts) >= 2 and parts[1]:` branch and the final `else`
of `add_furigana`: gloss from the (nonempty) MeCab reading, otherwise emit
the bare surface. -/
def mecabSpan (pv fm : Bool) (t : Token) : Span :=
  match t.reading with
  | some rd =>
    if rd ≠ [] then
      let hira := katakana_to_hiragana pv rd
      if t.surface.any is_kanji then
        if fm then
          if has_any_n3_plus_kanji t.surface then .ruby t.surface hira
          else .plain t.surface
        else .ruby t.surface hira
      else .plain t.surface
    else .plain t.surface
  | none => .plain t.surface

/-- Per-token body of the loop of `FuriganaGenerator.add_furigana`:
dictionary reading first (when the surface is a dictionary key and
contains kanji), then the tokenizer reading, else the bare surface. -/
def annotateToken (dict : NameDict) (pv fm : Bool) (t : Token) : Span :=
  let hk := t.surface.any is_kanji
  match dict t.surface with
  | some r =>
    if hk then
      if fm then
        if has_any_n3_plus_kanji t.surface then .ruby t.surface r
        else .plain t.surface
      else .ruby t.surface r
    else mecabSpan pv fm t
  | none => mecabSpan pv fm t

/-- `FuriganaGenerator.add_furigana text filter_n3_plus` at the span level
(the Python function returns the concatenation of the rendered spans);
`text` that is empty or whitespace-only is returned unchanged. -/
def add_furigana (dict : NameDict) (pv fm : Bool) (text : List Char)
    (tokens : List Token) : List Span :=
  if pyStrip text = [] then [.plain text]
  else tokens.map (annotateToken dict pv fm)

theorem annotateToken_baseText (dict : NameDict) (pv fm : Bool) (t : Token) :
    (annotateToken dict pv fm t).baseText = t.surface := by
  unfold annotateToken mecabSpan
  cases h1 : dict t.surface <;> cases h2 : t.reading <;>
    simp only [] <;> (repeat' split) <;> simp [Span.baseText]

/-- Concatenation of a list of character lists. -/
def joinL (l : List (List Char)) : List Char := l.flatten

/-- C1 (counterexample): a token whose tokenizer reading is absent is NOT
always emitted as its bare surface: when its surface is a kanji-containing
dictionary key, a ruby span with the dictionary reading is emitted. -/
theorem C1_counterexample :
    annotateToken (fun s => if s = ['猫'] then some ['ね', 'こ'] else none)
        false false { surface := ['猫'], reading := none } =
      Span.ruby ['猫'] ['ね', 'こ'] ∧
      Span.ruby ['猫'] ['ね', 'こ'] ≠ Span.plain ['猫'] := by
  constructor
  · decide
  · decide

/-- C1 (amended): concatenating the spans returned by `add_furigana`, with
each ruby span replaced by its base surface, yields exactly the input text
whenever the tokenizer's surfaces concatenate to the text; and a token
whose tokenizer reading is absent is emitted as its bare surface provided
its surface is not a kanji-containing key of the name dictionary. -/
theorem C1_amended (dict : NameDict) (pv fm : Bool) (text : List Char)
    (tokens : List Token)
    (htok : joinL (tokens.map Token.surface) = text) :
    joinL ((add_furigana dict pv fm text tokens).map Span.baseText) = text ∧
      ∀ t : Token, t.reading = none →
        ¬((dict t.surface).isSome ∧ t.surface.any is_kanji = true) →
        annotateToken dict pv fm t = Span.plain t.surface := by
  constructor
  · unfold add_furigana
    split
    · simp [joinL, Span.baseText]
    · rw [← htok]
      unfold joinL
      rw [List.map_map]
      congr 1
      apply List.map_congr_left
      intro t _
      exact annotateToken_baseText dict pv fm t
  · intro t hrd hnd
    unfold annotateToken mecabSpan
    cases h1 : dict t.surface with
    | none => rw [hrd]
    | some r =>
      rw [hrd]
      simp only []
      split
      · exact absurd ⟨by rw [h1]; rfl, by assumption⟩ hnd
      · rfl

/-- C1 (witness). -/
theorem C1_amended_witness :
    joinL ((add_furigana (fun _ => none) false false ['襖', 'だ']
        [{ surface := ['襖'], reading := some ['フ', 'ス', 'マ'] },
         { surface := ['だ'], reading := some ['ダ'] }]).map Span.baseText) = ['襖', 'だ'] ∧
      annotateToken (fun _ => none) false false { surface := ['あ'], reading := none } =
        Span.plain ['あ'] := by
  refine ⟨(C1_amended (fun _ => none) false false ['襖', 'だ'] _ (by decide)).1, ?_⟩
  exact (C1_amended (fun _ => none) false false ['あ']
      [{ surface := ['あ'], reading := none }] (by decide)).2
    { surface := ['あ'], reading := none } rfl (by simp)

/-- Whether the annotator can obtain a reading for a token: the surface is
a dictionary key, or the tokenizer supplied a nonempty reading. -/
def readingAvailable (dict : NameDict) (t : Token) : Prop :=
  (dict t.surface).isSome = true ∨ ∃ rd, t.reading = some rd ∧ rd ≠ []

/-- C4 (counterexample): under `filterMode = true`, a token containing a
kanji outside the elementary set but having no dictionary entry and no
tokenizer reading is emitted bare, although the claim requires a ruby span
for every kanji surface containing a non-elementary character. -/
theorem C4_counterexample :
    annotateToken (fun _ => none) false true { surface := ['襖'], reading := none } =
      Span.plain ['襖'] ∧
      has_any_n3_plus_kanji ['襖'] = true ∧
      (['襖'].any is_kanji) = true := by
  refine ⟨by decide, by decide, by decide⟩

/-- C4 (amended): under `filterMode = true`, for every token whose surface
contains a kanji character and for which a reading is available (a
dictionary hit or a nonempty tokenizer reading), a ruby span over the full
surface is emitted if and only if the surface contains at least one
character outside the elementary-kanji filter set, and otherwise the bare
surface is emitted; a kanji token with no reading available is also
emitted as its bare surface. -/
theorem C4_amended (dict : NameDict) (pv : Bool) (t : Token)
    (hk : t.surface.any is_kanji = true) :
    (readingAvailable dict t →
      ((∃ r, annotateToken dict pv true t = Span.ruby t.surface r) ↔
        has_any_n3_plus_kanji t.surface = true) ∧
      (has_any_n3_plus_kanji t.surface = false →
        annotateToken dict pv true t = Span.plain t.surface)) ∧
      (¬readingAvailable dict t →
        annotateToken dict pv true t = Span.plain t.surface) := by
  constructor
  · intro hra
    unfold annotateToken mecabSpan
    cases h1 : dict t.surface with
    | some r =>
      simp only [hk, if_true]
      constructor
      · constructor
        · rintro ⟨r2, hr2⟩
          by_cases hn : has_any_n3_plus_kanji t.surface = true
          · exact hn
          · simp [hn] at hr2
        · intro hn; exact ⟨r, by simp [hn]⟩
      · intro hn; simp [hn]
    | none =>
      rcases hra with hd | ⟨rd, hrd, hne⟩
      · rw [h1] at hd; simp at hd
      · rw [hrd]
        simp only [hne, if_true, hk, ne_eq, not_false_eq_true]
        constructor
        · constructor
          · rintro ⟨r2, hr2⟩
            by_cases hn : has_any_n3_plus_kanji t.surface = true
            · exact hn
            · simp [hn] at hr2
          · intro hn; exact ⟨katakana_to_hiragana pv rd, by simp [hn]⟩
        · intro hn; simp [hn]
  · intro hra
    unfold annotateToken mecabSpan
    cases h1 : dict t.surface with
    | some r => exact absurd (Or.inl (by rw [h1]; rfl)) hra
    | none =>
      cases h2 : t.reading with
      | none => rfl
      | some rd =>
        by_cases hne : rd = []
        · simp [hne]
        · exact absurd (Or.inr ⟨rd, h2, hne⟩) hra

/-- C4 (witness). -/
theorem C4_amended_witness :
    (∃ r, annotateToken (fun _ => none) false true
        { surface := ['襖'], reading := some ['フ', 'ス', 'マ'] } = Span.ruby ['襖'] r) := by
  have h := (C4_amended (fun _ => none) false
      { surface := ['襖'], reading := some ['フ', 'ス', 'マ'] } (by decide)).1
      (Or.inr ⟨['フ', 'ス', 'マ'], rfl, by decide⟩)
  exact h.1.mpr (by decide)

/-! ## VocabularyMerger (`extract-ruby-smart.py`) -/

/-- `KANJI_PATTERN` of `extract-ruby-smart.py`: U+4E00..U+9FAF and
U+3400..U+4DBF (note the narrower upper bound than `is_kanji`). -/
def isKanjiSmart (c : Char) : Bool :=
  (0x4E00 ≤ c.toNat ∧ c.toNat ≤ 0x9FAF) ∨ (0x3400 ≤ c.toNat ∧ c.toNat ≤ 0x4DBF)

/-- `is_all_kanji`: nonempty and entirely kanji / repetition marks. -/
def is_all_kanji (l : List Char) : Bool :=
  l ≠ [] && l.all (fun c => isKanjiSmart c || c = '々')

/-- Character class of `HIRAGANA_PATTERN` (`[぀-ゟー]`). -/
def isHiraRun (c : Char) : Bool :=
  (0x3040 ≤ c.toNat ∧ c.toNat ≤ 0x309F) ∨ c = 'ー'

/-- The `PARTICLES` set. -/
def PARTICLES : List (List Char) :=
  [['は'], ['が'], ['を'], ['に'], ['で'], ['と'], ['も'], ['の'], ['へ'], ['や'],
   ['か'], ['ね'], ['よ'], ['わ'], ['ば'], ['ら'], ['ぜ'], ['ぞ'], ['さ'],
   ['よ', 'り'], ['か', 'ら'], ['な', 'ど'], ['ま', 'で'], ['だ', 'け'],
   ['ほ', 'ど'], ['く', 'ら', 'い'], ['ば', 'か', 'り']]

/-- The `VALID_OKURIGANA` set (duplicates of the Python set literal kept;
only membership is used). -/
def VALID_OKURIGANA : List (List Char) :=
  [['し', 'い'], ['か', 'い'], ['が', 'い'], ['さ', 'い'], ['な', 'い'], ['ら', 'い'],
   ['ゆ', 'い'], ['く', 'い'], ['ぐ', 'い'],
   ['き'], ['け'],
   ['さ'], ['み'], ['げ'],
   ['る'], ['く'], ['ぐ'], ['す'], ['つ'], ['ぬ'], ['ぶ'], ['む'], ['う'],
   ['っ', 'た'], ['っ', 'て'], ['ん', 'だ'], ['ん', 'で'], ['い', 'た'], ['い', 'て'],
   ['い', 'だ'], ['い', 'で'],
   ['し', 'た'], ['し', 'て'], ['き', 'た'], ['き', 'て'],
   ['ま', 'す'], ['ま', 'せ', 'ん'], ['ま', 'し', 'た'], ['ま', 'し', 'ょ', 'う'],
   ['れ', 'る'], ['ら', 'れ', 'る'], ['せ', 'る'], ['さ', 'せ', 'る'],
   ['な', 'い'], ['な', 'か', 'っ', 'た'], ['な', 'く'], ['ず'],
   ['た', 'い'], ['た', 'く'],
   ['こ', 'う'], ['そ', 'う'], ['よ', 'う'], ['ま', 'い'],
   ['え', 'る'], ['け', 'る'], ['せ', 'る'], ['て', 'る'], ['ね', 'る'], ['べ', 'る'],
   ['め', 'る'], ['れ', 'る'], ['げ', 'る'], ['で', 'る'],
   ['い', 'る'], ['き', 'る'], ['じ', 'る'], ['ち', 'る'], ['に', 'る'], ['ひ', 'る'],
   ['び', 'る'], ['み', 'る'], ['り', 'る'],
   ['わ', 'る'], ['あ', 'る'], ['う', 'る'], ['お', 'る'],
   ['い'], ['き'], ['し'], ['ち'], ['り'], ['え'], ['れ'],
   ['め'], ['た'], ['て'], ['だ'], ['で'], ['せ'], ['べ'], ['け'], ['げ'], ['ね'],
   ['み'], ['ひ'], ['び'], ['ぎ'], ['じ'], ['ぴ'], ['ぢ'],
   ['る'], ['く'], ['ぐ'], ['す'], ['つ'], ['ぬ'], ['ぶ'], ['む'], ['う']]

/-- One sibling of the document walked by `extract_words_from_html`:
either a text node or a ruby node (base plus reading, as returned by
`extract_ruby_base`; a ruby without `rt` yields two empty strings). -/
inductive SmartItem where
  | textI (s : List Char)
  | rubyI (base rt : List Char)
deriving DecidableEq

/-- `get_next_sibling_ruby`: the next sibling ruby of the current element,
skipping whitespace-only text nodes; also returns the siblings after it. -/
def nextSiblingRuby : List SmartItem → Option ((List Char × List Char) × List SmartItem)
  | [] => none
  | .textI s :: rest => if pyStrip s = [] then nextSiblingRuby rest else none
  | .rubyI b r :: rest => some ((b, r), rest)

theorem nextSiblingRuby_length :
    ∀ {items : List SmartItem} {p : List Char × List Char} {rest2 : List SmartItem},
      nextSiblingRuby items = some (p, rest2) → rest2.length < items.length := by
  intro items
  induction items with
  | nil => intro p rest2 h; simp [nextSiblingRuby] at h
  | cons hd tl ih =>
    intro p rest2 h
    cases hd with
    | textI s =>
      by_cases hs : pyStrip s = []
      · simp only [nextSiblingRuby, hs, if_pos] at h
        exact Nat.lt_trans (ih h) (Nat.lt_succ_self _)
      · simp [nextSiblingRuby, hs] at h
    | rubyI b r =>
      simp only [nextSiblingRuby, Option.some.injEq] at h
      obtain ⟨_, h2⟩ := Prod.mk.injEq .. ▸ h
      simp_all

/-- The `HEURISTIC 1: COMPOUND NOUN MERGE` loop of
`extract_words_from_html`: while the accumulated base and the next sibling
ruby's base are both entirely kanji, concatenate bases and readings.  The
loop consumes at least one sibling per iteration, so it is written
structurally on a fuel argument that callers set to the sibling count (the
fuel-exhausted case returns the current state and is never reached from
`extract_words`). -/
def mergeRun : Nat → List Char → List Char → List SmartItem →
    List Char × List Char × List SmartItem
  | 0, b, r, items => (b, r, items)
  | fuel + 1, b, r, items =>
    match nextSiblingRuby items with
    | none => (b, r, items)
    | some ((nb, nr), rest2) =>
      if is_all_kanji b && is_all_kanji nb then
        mergeRun fuel (b ++ nb) (r ++ nr) rest2
      else (b, r, items)

/-- Python `range(k, 1, -1)`: the lengths `k, k-1, …, 2`. -/
def downTo2 : Nat → List Nat
  | 0 => []
  | 1 => []
  | n + 2 => (n + 2) :: downTo2 (n + 1)

/-- The `for i in range(min(len(candidate), 4), 1, -1)` loop of the
okurigana capture: first prefix of `candidate` of one of the given
lengths found in `VALID_OKURIGANA`, else empty. -/
def tryPrefixLens (candidate : List Char) : List Nat → List Char
  | [] => []
  | n :: ns =>
    if candidate.take n ∈ VALID_OKURIGANA then candidate.take n
    else tryPrefixLens candidate ns

/-- The 1-character fallback of the okurigana capture: the leading
character when it is a valid ending and not a particle, or an う after a
base ending in こ/そ/よ/ろ (volitional form). -/
def fallbackOne : List Char → List Char → List Char
  | [], _ => []
  | c :: _, base =>
    if [c] ∈ VALID_OKURIGANA ∧ [c] ∉ PARTICLES then [c]
    else if c = 'う' ∧ base ≠ [] ∧ base.getLast? ∈ [some 'こ', some 'そ', some 'よ', some 'ろ'] then [c]
    else []

/-- The whole suffix search of `HEURISTIC 2: OKURIGANA CAPTURE`: longest
prefix at lengths 4, 3, 2, then the guarded 1-character fallback. -/
def findSuffix (candidate base : List Char) : List Char :=
  let s := tryPrefixLens candidate (downTo2 (min candidate.length 4))
  if s ≠ [] then s
  else if 1 ≤ candidate.length then fallbackOne candidate base
  else []

/-- `get_trailing_text`: the raw text of the immediately following sibling
when it is a text node, else empty. -/
def getTrailingText : List SmartItem → List Char
  | .textI s :: _ => s
  | _ => []

/-- `HEURISTIC 2: OKURIGANA CAPTURE` applied to a (possibly merged) ruby
pair and the plain text following it: when the text begins with hiragana,
the found suffix (searched within the first 4 characters of the hiragana
run) is appended to both base and reading. -/
def captureOkurigana (b r trailing : List Char) : List Char × List Char :=
  let okuri := trailing.takeWhile isHiraRun
  if okuri ≠ [] then
    let sfx := findSuffix (okuri.take 4) b
    (b ++ sfx, r ++ sfx)
  else (b, r)

/-- The final `if base != reading: if base not in words:` step of the
loop of `extract_words_from_html`: record the entry unless base equals
reading or the base is already present (first occurrence wins). -/
def updateWords (words : List (List Char × List Char)) (cap : List Char × List Char) :
    List (List Char × List Char) :=
  if cap.1 ≠ cap.2 ∧ ¬(cap.1 ∈ words.map Prod.fst) then words ++ [cap] else words

/-- The main loop of `extract_words_from_html` over the document's ruby
nodes in document order (modelled as one sibling list): `words` is the
accumulated insertion-ordered dictionary keyed by base (first occurrence
wins).  Rubies consumed by the compound merge are skipped because the
recursion continues after the last merged ruby; each step consumes at
least one sibling, so the loop is fueled with the sibling count (the
fuel-exhausted case is never reached from `extract_words`). -/
def extract_words_aux : Nat → List (List Char × List Char) → List SmartItem →
    List (List Char × List Char)
  | _, words, [] => words
  | 0, words, _ => words
  | fuel + 1, words, .textI _ :: rest => extract_words_aux fuel words rest
  | fuel + 1, words, .rubyI b r :: rest =>
    if b = [] ∨ r = [] then extract_words_aux fuel words rest
    else if b.head? = some '々' then extract_words_aux fuel words rest
    else
      extract_words_aux fuel
        (updateWords words
          (captureOkurigana (mergeRun rest.length b r rest).1
            (mergeRun rest.length b r rest).2.1
            (getTrailingText (mergeRun rest.length b r rest).2.2)))
        (mergeRun rest.length b r rest).2.2

/-- `extract_words_from_html` on a sibling list. -/
def extract_words (items : List SmartItem) : List (List Char × List Char) :=
  extract_words_aux items.length [] items

/-- A (base, reading) pair as a ruby sibling. -/
def toRubyItem (p : List Char × List Char) : SmartItem := .rubyI p.1 p.2

theorem is_all_kanji_append {a b : List Char}
    (ha : is_all_kanji a = true) (hb : is_all_kanji b = true) :
    is_all_kanji (a ++ b) = true := by
  unfold is_all_kanji at *
  simp only [Bool.and_eq_true, List.all_append, decide_eq_true_eq, ne_eq] at *
  exact ⟨by simp [ha.1], ha.2, hb.2⟩

theorem is_all_kanji_ne_nil {a : List Char} (ha : is_all_kanji a = true) : a ≠ [] := by
  unfold is_all_kanji at ha
  simp only [Bool.and_eq_true, decide_eq_true_eq, ne_eq] at ha
  exact ha.1

theorem mergeRun_all_kanji (ps : List (List Char × List Char)) :
    ∀ (fuel : Nat) (b r : List Char), ps.length ≤ fuel →
      is_all_kanji b = true → (∀ p ∈ ps, is_all_kanji p.1 = true) →
      mergeRun fuel b r (ps.map toRubyItem) =
        (b ++ joinL (ps.map Prod.fst), r ++ joinL (ps.map Prod.snd), []) := by
  induction ps with
  | nil =>
    intro fuel b r _ _ _
    cases fuel <;> simp [mergeRun, nextSiblingRuby, joinL]
  | cons p ps ih =>
    intro fuel b r hf hb hall
    cases fuel with
    | zero => simp at hf
    | succ f =>
      have hp := hall p (by simp)
      simp only [List.map_cons, toRubyItem, mergeRun, nextSiblingRuby]
      rw [if_pos (by simp [hb, hp])]
      rw [ih f (b ++ p.1) (r ++ p.2) (by simpa using Nat.succ_le_succ_iff.mp hf)
        (is_all_kanji_append hb hp) (fun q hq => hall q (by simp [hq]))]
      simp [joinL]

/-- C7: during `extract_words_from_html`, while the current ruby base is
entirely kanji and the next sibling ruby (after whitespace-only text
nodes) also has an entirely-kanji base, bases and readings are
concatenated into one entry: a run of all-kanji ruby siblings yields the
single entry of the concatenated bases and readings (emitted when the
concatenations differ); in particular adjacent 留/と and 守/もり (with an
intervening whitespace text node) merge into the single entry
留守/ともり. -/
theorem C7_compound_merge :
    (∀ (p0 : List Char × List Char) (ps : List (List Char × List Char)),
      is_all_kanji p0.1 = true → p0.2 ≠ [] → p0.1.head? ≠ some '々' →
      (∀ p ∈ ps, is_all_kanji p.1 = true) →
      extract_words ((p0 :: ps).map toRubyItem) =
        if joinL ((p0 :: ps).map Prod.fst) ≠ joinL ((p0 :: ps).map Prod.snd) then
          [(joinL ((p0 :: ps).map Prod.fst), joinL ((p0 :: ps).map Prod.snd))]
        else []) ∧
      extract_words [SmartItem.rubyI ['留'] ['と'], SmartItem.textI [' '],
        SmartItem.rubyI ['守'] ['も', 'り']] = [(['留', '守'], ['と', 'も', 'り'])] := by
  constructor
  · intro p0 ps h0 hr0 hrep hall
    unfold extract_words
    simp only [List.map_cons, List.length_cons, toRubyItem]
    unfold extract_words_aux
    rw [if_neg (by push_neg; exact ⟨is_all_kanji_ne_nil h0, hr0⟩), if_neg hrep]
    simp only [List.length_map]
    rw [mergeRun_all_kanji ps ps.length p0.1 p0.2 (Nat.le_refl _) h0 hall]
    have hcap : captureOkurigana (p0.1 ++ joinL (ps.map Prod.fst))
        (p0.2 ++ joinL (ps.map Prod.snd))
        (getTrailingText ([] : List SmartItem)) =
        (p0.1 ++ joinL (ps.map Prod.fst), p0.2 ++ joinL (ps.map Prod.snd)) := by
      simp [captureOkurigana, getTrailingText]
    simp only [hcap]
    have haux : ∀ (w : List (List Char × List Char)),
        extract_words_aux ps.length w [] = w := by
      intro w; cases ps.length <;> simp [extract_words_aux]
    rw [haux]
    unfold updateWords
    simp only [List.map_nil, List.mem_nil_iff, not_false_eq_true, and_true,
      List.nil_append, joinL, List.map_cons, List.flatten_cons]
  · decide

/-- C7 (witness). -/
theorem C7_compound_merge_witness :
    extract_words ([(['留'], ['と']), (['守'], ['も', 'り'])].map toRubyItem) =
      [(['留', '守'], ['と', 'も', 'り'])] := by
  have h := C7_compound_merge.1 (['留'], ['と']) [(['守'], ['も', 'り'])]
    (by decide) (by decide) (by decide) (by decide)
  simpa using h

theorem fallbackOne_cons_eq (c : Char) (tl base : List Char) :
    fallbackOne (c :: tl) base =
      (if [c] ∈ VALID_OKURIGANA ∧ [c] ∉ PARTICLES then [c]
       else if c = 'う' ∧ base.getLast? ∈ [some 'こ', some 'そ', some 'よ', some 'ろ'] then [c]
       else []) := by
  show (if [c] ∈ VALID_OKURIGANA ∧ [c] ∉ PARTICLES then [c]
    else if c = 'う' ∧ base ≠ [] ∧ base.getLast? ∈ [some 'こ', some 'そ', some 'よ', some 'ろ'] then [c]
    else []) = _
  by_cases h1 : [c] ∈ VALID_OKURIGANA ∧ [c] ∉ PARTICLES
  · rw [if_pos h1, if_pos h1]
  · rw [if_neg h1, if_neg h1]
    by_cases h2 : c = 'う' ∧ base.getLast? ∈ [some 'こ', some 'そ', some 'よ', some 'ろ']
    · have hne : base ≠ [] := by
        rintro rfl
        simp at h2
      rw [if_pos ⟨h2.1, hne, h2.2⟩, if_pos h2]
    · rw [if_neg, if_neg h2]
      rintro ⟨hc, -, hg⟩
      exact h2 ⟨hc, hg⟩

/-- Restatement of the okurigana suffix search following the claim's
wording: the longest prefix of the candidate among lengths 4, 3, 2 (each
bounded by the candidate's length) that is in the ending table; otherwise
the single leading character, taken exactly when it is in the table and
not a particle, or when it is う and the base ends in こ/そ/よ/ろ. -/
def specFindSuffix (candidate base : List Char) : List Char :=
  if 4 ≤ candidate.length ∧ candidate.take 4 ∈ VALID_OKURIGANA then candidate.take 4
  else if 3 ≤ candidate.length ∧ candidate.take 3 ∈ VALID_OKURIGANA then candidate.take 3
  else if 2 ≤ candidate.length ∧ candidate.take 2 ∈ VALID_OKURIGANA then candidate.take 2
  else
    match candidate with
    | [] => []
    | c :: _ =>
      if [c] ∈ VALID_OKURIGANA ∧ [c] ∉ PARTICLES then [c]
      else if c = 'う' ∧ base.getLast? ∈ [some 'こ', some 'そ', some 'よ', some 'ろ'] then [c]
      else []

theorem findSuffix_eq_spec (cand base : List Char) :
    findSuffix cand base = specFindSuffix cand base := by
  match cand with
  | [] => simp [findSuffix, specFindSuffix, downTo2, tryPrefixLens]
  | [a] =>
    simp [findSuffix, specFindSuffix, downTo2, tryPrefixLens, fallbackOne_cons_eq]
  | [a, b] =>
    by_cases h2 : [a, b] ∈ VALID_OKURIGANA <;>
      simp [findSuffix, specFindSuffix, downTo2, tryPrefixLens, h2, fallbackOne_cons_eq]
  | [a, b, c] =>
    by_cases h3 : [a, b, c] ∈ VALID_OKURIGANA <;>
      by_cases h2 : [a, b] ∈ VALID_OKURIGANA <;>
        simp [findSuffix, specFindSuffix, downTo2, tryPrefixLens, h3, h2,
          fallbackOne_cons_eq]
  | a :: b :: c :: d :: tl =>
    have hmin : min (a :: b :: c :: d :: tl).length 4 = 4 := by
      simp only [List.length_cons]
      omega
    by_cases h4 : [a, b, c, d] ∈ VALID_OKURIGANA <;>
      by_cases h3 : [a, b, c] ∈ VALID_OKURIGANA <;>
        by_cases h2 : [a, b] ∈ VALID_OKURIGANA <;>
          simp [findSuffix, specFindSuffix, downTo2, tryPrefixLens, hmin, h4, h3, h2,
            List.take_succ_cons, fallbackOne_cons_eq]

/-- C8 (counterexample): the single-character step of the okurigana
capture is not pure longest-prefix table lookup: で is in the
valid-endings table, yet a ruby 撫/な followed by plain text で。 yields
the entry 撫/な without the で suffix (で is excluded as a particle),
where the claim requires the 1-character match で to be appended. -/
theorem C8_counterexample :
    extract_words [SmartItem.rubyI ['撫'] ['な'], SmartItem.textI ['で', '。']] =
      [(['撫'], ['な'])] ∧
      ['で'] ∈ VALID_OKURIGANA ∧
      extract_words [SmartItem.rubyI ['撫'] ['な'], SmartItem.textI ['で', '。']] ≠
        [(['撫', 'で'], ['な', 'で'])] := by
  refine ⟨by decide, by decide, by decide⟩

/-- C8 (amended): after the (possibly merged) ruby node, when the
immediately following plain-text run begins with hiragana, up to 4 leading
characters form the candidate and the appended suffix is the longest
prefix of the candidate present in the okurigana ending table, checking
lengths 4, 3, 2; at length 1 the leading character is appended only when
it is in the table and not in the particle set, or when it is う and the
base ends in こ/そ/よ/ろ; in particular ruby 行/い followed by った yields
行った/いった via the 2-character match. -/
theorem C8_okurigana :
    (∀ cand base, findSuffix cand base = specFindSuffix cand base) ∧
      extract_words [SmartItem.rubyI ['行'] ['い'], SmartItem.textI ['っ', 'た']] =
        [(['行', 'っ', 'た'], ['い', 'っ', 'た'])] ∧
      findSuffix ['っ', 'た'] ['行'] = ['っ', 'た'] := by
  exact ⟨findSuffix_eq_spec, by decide, by decide⟩

/-- C10: in the single-character fallback of the okurigana capture, a
leading character belonging to the particle set is never captured even
when it is in the valid-endings table — concretely a lone trailing で or
ね (members of both tables) is never appended — while a lone trailing う
is captured when the base's final character is こ, そ, よ, or ろ. -/
theorem C10_particle_fallback :
    (∀ (cand base : List Char) (c : Char), cand.head? = some c → [c] ∈ PARTICLES →
      fallbackOne cand base = []) ∧
      (∀ (cand base : List Char), cand.head? = some 'う' →
        base.getLast? ∈ [some 'こ', some 'そ', some 'よ', some 'ろ'] →
        fallbackOne cand base = ['う']) ∧
      extract_words [SmartItem.rubyI ['茹'] ['ゆ'], SmartItem.textI ['で', '。']] =
        [(['茹'], ['ゆ'])] ∧
      extract_words [SmartItem.rubyI ['刎'] ['は'], SmartItem.textI ['ね', '。']] =
        [(['刎'], ['は'])] ∧
      extract_words [SmartItem.rubyI ['起', 'こ'] ['お', 'こ'], SmartItem.textI ['う']] =
        [(['起', 'こ', 'う'], ['お', 'こ', 'う'])] := by
  refine ⟨?_, ?_, by decide, by decide, by decide⟩
  · intro cand base c hc hp
    obtain ⟨tl, rfl⟩ : ∃ tl, cand = c :: tl := by
      cases cand with
      | nil => simp at hc
      | cons x tl =>
        simp only [List.head?_cons, Option.some.injEq] at hc
        exact ⟨tl, by rw [hc]⟩
    show fallbackOne (c :: tl) base = []
    have h1 : ¬([c] ∈ VALID_OKURIGANA ∧ [c] ∉ PARTICLES) := by
      rintro ⟨-, hnp⟩
      exact hnp hp
    have h2 : ¬(c = 'う' ∧ base ≠ [] ∧
        base.getLast? ∈ [some 'こ', some 'そ', some 'よ', some 'ろ']) := by
      rintro ⟨rfl, -, -⟩
      exact absurd hp (by decide)
    simp only [fallbackOne, h1, h2, if_neg, if_false]
  · intro cand base hc hlast
    obtain ⟨tl, rfl⟩ : ∃ tl, cand = 'う' :: tl := by
      cases cand with
      | nil => simp at hc
      | cons x tl =>
        simp only [List.head?_cons, Option.some.injEq] at hc
        exact ⟨tl, by rw [hc]⟩
    show fallbackOne ('う' :: tl) base = ['う']
    have h1 : ['う'] ∈ VALID_OKURIGANA ∧ ['う'] ∉ PARTICLES := by decide
    rw [fallbackOne, if_pos h1]

/-- C10 (witness). -/
theorem C10_particle_fallback_witness :
    fallbackOne ['で'] ['茹'] = [] ∧ fallbackOne ['う'] ['起', 'こ'] = ['う'] := by
  exact ⟨C10_particle_fallback.1 ['で'] ['茹'] 'で' rfl (by decide),
    C10_particle_fallback.2.1 ['う'] ['起', 'こ'] rfl (by decide)⟩

/-! ## NameDictionaryBuilder (`extract_ruby_dictionary`,
`extract-all-ruby.py`, and the per-chapter `update` of
`process_epub_to_text`) -/

/-- `frequency[key] += 1` on a `collections.Counter`, modelled as an
insertion-ordered association list (a new key is appended, an existing
key's count is bumped in place, matching the Counter's iteration order). -/
def bumpCount (fr : List ((List Char × List Char) × Nat)) (k : List Char × List Char) :
    List ((List Char × List Char) × Nat) :=
  if k ∈ fr.map Prod.fst then
    fr.map (fun e => if e.1 = k then (e.1, e.2 + 1) else e)
  else fr ++ [(k, 1)]

/-- The (base, reading) pairs seen by `extract_ruby_dictionary`, in
document order: ruby tags without an `rt` child are skipped (`reading` is
`none`), and the `if base_text and reading:` filter keeps only pairs with
nonempty base and reading.  Neither side is stripped. -/
def rubyDictPairs (tags : List (List Char × Option (List Char))) :
    List (List Char × List Char) :=
  tags.filterMap fun tg =>
    match tg.2 with
    | none => none
    | some rd => if tg.1 ≠ [] ∧ rd ≠ [] then some (tg.1, rd) else none

/-- The `frequency` Counter of `extract_ruby_dictionary`. -/
def rubyFrequency (tags : List (List Char × Option (List Char))) :
    List ((List Char × List Char) × Nat) :=
  (rubyDictPairs tags).foldl bumpCount []

/-- `readings_for_base`: the (reading, count) list for one base, in the
Counter's first-seen order. -/
def readingsFor (tags : List (List Char × Option (List Char))) (b : List Char) :
    List (List Char × Nat) :=
  (rubyFrequency tags).filterMap fun e =>
    if e.1.1 = b then some (e.1.2, e.2) else none

/-- Python `max(lst, key=lambda x: x[1])`: the first element of maximal
second component (`max` keeps the current value on ties). -/
def maxBySecond : List (List Char × Nat) → Option (List Char × Nat)
  | [] => none
  | x :: xs => some (xs.foldl (fun best y => if best.2 < y.2 then y else best) x)

/-- `extract_ruby_dictionary` as a lookup function: `final_dict` maps each
base occurring in the document to its most frequent reading (ties resolved
by first-seen order). -/
def extract_ruby_dictionary (tags : List (List Char × Option (List Char))) : NameDict :=
  fun b => (maxBySecond (readingsFor tags b)).map Prod.fst

/-- `name_dictionary.update(chapter_dict)`: keys of the new dictionary
override keys of the old one. -/
def dictUpdate (old new : NameDict) : NameDict :=
  fun b => match new b with
  | some r => some r
  | none => old b

/-- Pass 1 of `process_epub_to_text`: each document's dictionary is built
by `extract_ruby_dictionary` and folded into the accumulated dictionary by
`update`. -/
def buildDocs (docs : List (List (List Char × Option (List Char)))) : NameDict :=
  docs.foldl (fun acc d => dictUpdate acc (extract_ruby_dictionary d)) (fun _ => none)

/-- `x` occurs in `l` with all earlier entries of strictly smaller count
and all later entries of no larger count: the first-seen maximal entry. -/
def FirstMaxAt (l : List (List Char × Nat)) (x : List Char × Nat) : Prop :=
  ∃ pre post, l = pre ++ x :: post ∧ (∀ z ∈ pre, z.2 < x.2) ∧ (∀ z ∈ post, z.2 ≤ x.2)

theorem foldl_max_snd_le (xs : List (List Char × Nat)) :
    ∀ x : List Char × Nat,
      x.2 ≤ (xs.foldl (fun best y => if best.2 < y.2 then y else best) x).2 := by
  induction xs with
  | nil => intro x; exact Nat.le_refl _
  | cons y ys ih =>
    intro x
    simp only [List.foldl_cons]
    by_cases h : x.2 < y.2
    · rw [if_pos h]
      exact Nat.le_trans (Nat.le_of_lt h) (ih y)
    · rw [if_neg h]
      exact ih x

theorem foldl_max_first (xs : List (List Char × Nat)) :
    ∀ x : List Char × Nat,
      FirstMaxAt (x :: xs) (xs.foldl (fun best y => if best.2 < y.2 then y else best) x) := by
  induction xs with
  | nil => intro x; exact ⟨[], [], by simp, by simp, by simp⟩
  | cons y ys ih =>
    intro x
    simp only [List.foldl_cons]
    by_cases h : x.2 < y.2
    · rw [if_pos h]
      obtain ⟨pre, post, hdec, hpre, hpost⟩ := ih y
      refine ⟨x :: pre, post, by simp [hdec], ?_, hpost⟩
      intro z hz
      rcases List.mem_cons.mp hz with rfl | hz2
      · calc z.2 < y.2 := h
          _ ≤ _ := foldl_max_snd_le ys y
      · exact hpre z hz2
    · rw [if_neg h]
      obtain ⟨pre, post, hdec, hpre, hpost⟩ := ih x
      cases pre with
      | nil =>
        simp only [List.nil_append] at hdec
        obtain ⟨hx, hys⟩ := List.cons.injEq .. ▸ hdec
        refine ⟨[], y :: post, ?_, by simp, ?_⟩
        · simp [← hx, ← hys]
        · intro z hz
          rcases List.mem_cons.mp hz with rfl | hz2
          · rw [← hx]; exact Nat.le_of_not_lt h
          · exact hpost z hz2
      | cons q pre2 =>
        simp only [List.cons_append] at hdec
        injection hdec with hq hys
        refine ⟨x :: y :: pre2, post, ?_, ?_, hpost⟩
        · conv_lhs => rw [hys]
          simp
        · intro z hz
          have hxlt : x.2 < (ys.foldl (fun best y => if best.2 < y.2 then y else best) x).2 := by
            have h2 := hpre q (by simp)
            rw [← hq] at h2
            exact h2
          rcases List.mem_cons.mp hz with rfl | hz2
          · exact hxlt
          rcases List.mem_cons.mp hz2 with rfl | hz3
          · exact Nat.lt_of_le_of_lt (Nat.le_of_not_lt h) hxlt
          · exact hpre z (by simp [hz3])

theorem maxBySecond_first_max {l : List (List Char × Nat)} {x : List Char × Nat}
    (h : maxBySecond l = some x) : FirstMaxAt l x := by
  cases l with
  | nil => simp [maxBySecond] at h
  | cons y ys =>
    simp only [maxBySecond, Option.some.injEq] at h
    rw [← h]
    exact foldl_max_first ys y

theorem FirstMaxAt.mem {l : List (List Char × Nat)} {x : List Char × Nat}
    (h : FirstMaxAt l x) : x ∈ l := by
  obtain ⟨pre, post, rfl, -, -⟩ := h
  simp

/-- C3 (counterexample): occurrence counts are NOT accumulated across the
documents of a collection: a term read あ twice in the first document and
い once in the second ends up mapped to い, because each document is
resolved separately and `update` lets the last document win. -/
theorem C3_counterexample :
    buildDocs [[(['人'], some ['あ']), (['人'], some ['あ'])], [(['人'], some ['い'])]]
        ['人'] = some ['い'] ∧
      (some ['い'] : Option (List Char)) ≠ some ['あ'] := by
  constructor
  · rfl
  · decide

/-- C3 (amended): within each single document,
`extract_ruby_dictionary` maps a term to the reading of highest observed
count in that document, ties resolved in favor of the first-seen reading
(the returned reading occupies a position in the per-base (reading, count)
list, in first-seen order, with all earlier counts strictly smaller and
all later counts no larger); across the documents of a collection the
dictionaries are combined by `update`, so for a term occurring in several
documents the reading from the last such document wins, with no
accumulation of counts across documents. -/
theorem C3_frequency_resolution :
    (∀ (tags : List (List Char × Option (List Char))) (b r : List Char),
      extract_ruby_dictionary tags b = some r →
      ∃ c, FirstMaxAt (readingsFor tags b) (r, c)) ∧
      (∀ (docs : List (List (List Char × Option (List Char))))
        (d : List (List Char × Option (List Char))) (b : List Char),
        buildDocs (docs ++ [d]) b =
          match extract_ruby_dictionary d b with
          | some r => some r
          | none => buildDocs docs b) := by
  constructor
  · intro tags b r h
    unfold extract_ruby_dictionary at h
    cases hm : maxBySecond (readingsFor tags b) with
    | none => rw [hm] at h; simp at h
    | some x =>
      rw [hm] at h
      simp only [Option.map_some', Option.some.injEq] at h
      refine ⟨x.2, ?_⟩
      have hx : x = (r, x.2) := by
        cases x
        simp_all
      rw [← hx]
      exact maxBySecond_first_max hm
  · intro docs d b
    unfold buildDocs
    rw [List.foldl_append]
    simp [dictUpdate]

/-- C3 (witness). -/
theorem C3_frequency_resolution_witness :
    (∃ c, FirstMaxAt
      (readingsFor [(['人'], some ['あ']), (['人'], some ['あ']), (['人'], some ['い'])] ['人'])
      (['あ'], c)) := by
  exact C3_frequency_resolution.1
    [(['人'], some ['あ']), (['人'], some ['あ']), (['人'], some ['い'])] ['人'] ['あ'] rfl

/-- `extract_all_ruby_from_epub` over the ruby tags of the EPUB in
document order: the stripped reading must be nonempty, and a pair is
stored only when the stripped base is nonempty, differs from the reading,
and was not stored before (first occurrence wins). -/
def extract_all_ruby_aux :
    List (List Char × List Char) → List (List Char × Option (List Char)) →
    List (List Char × List Char)
  | acc, [] => acc
  | acc, (_, none) :: rest => extract_all_ruby_aux acc rest
  | acc, (b0, some rd0) :: rest =>
    if pyStrip rd0 = [] then extract_all_ruby_aux acc rest
    else
      if pyStrip b0 ≠ [] ∧ pyStrip rd0 ≠ [] ∧ pyStrip b0 ≠ pyStrip rd0 ∧
          ¬(pyStrip b0 ∈ acc.map Prod.fst) then
        extract_all_ruby_aux (acc ++ [(pyStrip b0, pyStrip rd0)]) rest
      else extract_all_ruby_aux acc rest

/-- `extract_all_ruby_from_epub`. -/
def extract_all_ruby (tags : List (List Char × Option (List Char))) :
    List (List Char × List Char) :=
  extract_all_ruby_aux [] tags

theorem extract_all_ruby_aux_inv (tags : List (List Char × Option (List Char))) :
    ∀ (acc : List (List Char × List Char)),
      (∀ p ∈ acc, p.1 ≠ p.2 ∧ p.2 ≠ []) →
      ∀ p ∈ extract_all_ruby_aux acc tags, p.1 ≠ p.2 ∧ p.2 ≠ [] := by
  induction tags with
  | nil => intro acc hacc p hp; exact hacc p hp
  | cons tg rest ih =>
    obtain ⟨b0, rdo⟩ := tg
    intro acc hacc p hp
    cases rdo with
    | none => exact ih acc hacc p hp
    | some rd0 =>
      unfold extract_all_ruby_aux at hp
      by_cases h1 : pyStrip rd0 = []
      · rw [if_pos h1] at hp
        exact ih acc hacc p hp
      · rw [if_neg h1] at hp
        by_cases h2 : pyStrip b0 ≠ [] ∧ pyStrip rd0 ≠ [] ∧ pyStrip b0 ≠ pyStrip rd0 ∧
            ¬(pyStrip b0 ∈ acc.map Prod.fst)
        · rw [if_pos h2] at hp
          refine ih _ ?_ p hp
          intro q hq
          rcases List.mem_append.mp hq with hq1 | hq2
          · exact hacc q hq1
          · simp only [List.mem_singleton] at hq2
            rw [hq2]
            exact ⟨h2.2.2.1, h2.2.1⟩
        · rw [if_neg h2] at hp
          exact ih acc hacc p hp

theorem bumpCount_keys (fr : List ((List Char × List Char) × Nat))
    (k q : List Char × List Char) (hq : q ∈ (bumpCount fr k).map Prod.fst) :
    q ∈ fr.map Prod.fst ∨ q = k := by
  unfold bumpCount at hq
  by_cases hmem : k ∈ fr.map Prod.fst
  · rw [if_pos hmem] at hq
    left
    rw [List.map_map] at hq
    have hfun : (Prod.fst ∘ fun e => if e.1 = k then (e.1, e.2 + 1) else e) =
        (Prod.fst : (List Char × List Char) × Nat → List Char × List Char) := by
      funext e
      by_cases he : e.1 = k <;> simp [he]
    rw [hfun] at hq
    exact hq
  · rw [if_neg hmem] at hq
    simp only [List.map_append, List.mem_append] at hq
    rcases hq with hq1 | hq2
    · exact Or.inl hq1
    · simp only [List.map_cons, List.map_nil, List.mem_singleton] at hq2
      exact Or.inr hq2

theorem freq_fold_keys (pairs : List (List Char × List Char)) :
    ∀ (acc : List ((List Char × List Char) × Nat)) (k : List Char × List Char),
      k ∈ (pairs.foldl bumpCount acc).map Prod.fst →
      k ∈ acc.map Prod.fst ∨ k ∈ pairs := by
  induction pairs with
  | nil => intro acc k h; exact Or.inl h
  | cons p ps ih =>
    intro acc k h
    simp only [List.foldl_cons] at h
    rcases ih (bumpCount acc p) k h with h1 | h2
    · rcases bumpCount_keys acc p k h1 with h3 | h4
      · exact Or.inl h3
      · exact Or.inr (by simp [h4])
    · exact Or.inr (by simp [h2])

theorem rubyDictPairs_nonempty {tags : List (List Char × Option (List Char))}
    {b r : List Char} (h : (b, r) ∈ rubyDictPairs tags) : b ≠ [] ∧ r ≠ [] := by
  unfold rubyDictPairs at h
  obtain ⟨tg, -, htg⟩ := List.mem_filterMap.mp h
  cases h2 : tg.2 with
  | none => rw [h2] at htg; simp at htg
  | some rd =>
    rw [h2] at htg
    have htg2 : (if tg.1 ≠ [] ∧ rd ≠ [] then some (tg.1, rd) else none) =
        some (b, r) := htg
    by_cases hc : tg.1 ≠ [] ∧ rd ≠ []
    · rw [if_pos hc] at htg2
      simp only [Option.some.injEq, Prod.mk.injEq] at htg2
      rw [← htg2.1, ← htg2.2]
      exact hc
    · rw [if_neg hc] at htg2
      simp at htg2

/-- C9 (counterexample): the dictionary-building extraction does not
enforce base ≠ reading: a document whose single ruby tag glosses は with
は itself stores the pair (は, は), violating the claimed invariant. -/
theorem C9_counterexample :
    extract_ruby_dictionary [(['は'], some ['は'])] ['は'] = some ['は'] := by
  rfl

/-- C9 (amended): every pair produced by `extract_all_ruby_from_epub`
satisfies base ≠ reading and reading nonempty; the pairs stored by the
dictionary-building extraction (`extract_ruby_dictionary`) satisfy only
that base and reading are nonempty — a pair with base equal to reading may
be stored there. -/
theorem C9_ruby_pair_invariant :
    (∀ (tags : List (List Char × Option (List Char))) (p : List Char × List Char),
      p ∈ extract_all_ruby tags → p.1 ≠ p.2 ∧ p.2 ≠ []) ∧
      (∀ (tags : List (List Char × Option (List Char))) (b r : List Char),
        extract_ruby_dictionary tags b = some r → b ≠ [] ∧ r ≠ []) := by
  constructor
  · intro tags p hp
    exact extract_all_ruby_aux_inv tags [] (by simp) p hp
  · intro tags b r h
    unfold extract_ruby_dictionary at h
    cases hm : maxBySecond (readingsFor tags b) with
    | none => rw [hm] at h; simp at h
    | some x =>
      rw [hm] at h
      simp only [Option.map_some', Option.some.injEq] at h
      have hxmem : x ∈ readingsFor tags b := (maxBySecond_first_max hm).mem
      unfold readingsFor at hxmem
      obtain ⟨e, hemem, he⟩ := List.mem_filterMap.mp hxmem
      by_cases hc : e.1.1 = b
      · rw [if_pos hc] at he
        have hkey : e.1 ∈ (rubyFrequency tags).map Prod.fst :=
          List.mem_map.mpr ⟨e, hemem, rfl⟩
        unfold rubyFrequency at hkey
        rcases freq_fold_keys (rubyDictPairs tags) [] e.1 hkey with h1 | h2
        · simp at h1
        · have he1 : e.1 = (b, r) := by
            have hr : e.1.2 = r := by
              have := congrArg Prod.fst (Option.some.injEq .. ▸ he :
                (e.1.2, e.2) = x)
              rw [← h]
              exact this
            cases hel : e.1
            simp only [hel] at hc hr
            simp [hc, hr]
          rw [he1] at h2
          exact rubyDictPairs_nonempty h2
      · rw [if_neg hc] at he
        simp at he

/-- C9 (witness). -/
theorem C9_ruby_pair_invariant_witness :
    (['早'], ['は', 'や']).1 ≠ (['早'], ['は', 'や']).2 ∧
      (['早'], ['は', 'や']).2 ≠ [] := by
  exact C9_ruby_pair_invariant.1 [(['早'], some [' ', 'は', 'や'])] (['早'], ['は', 'や'])
    (by decide)

/-! ## MarkupWalker (`preserve_existing_ruby`) -/

/-- A markup node as walked by `extract_text_with_ruby` after the
pre-passes of `preserve_existing_ruby` (non-content nodes decomposed,
images already replaced by placeholder text nodes): a text leaf, a ruby
node (its `rt` reading kept inside it, `str(child)` reproducing the
markup), a block container (`isPara` for p/h1..h6, otherwise div/span), a
line break, or any other tag. -/
inductive MNode where
  | textN (s : List Char)
  | rubyN (base rt : List Char)
  | blockN (isPara : Bool) (children : List MNode)
  | brN
  | otherN (children : List MNode)

/-- One element appended to the `result` list of
`extract_text_with_ruby`: annotated/structural text, or a ruby node
emitted verbatim. -/
inductive RSpan where
  | textS (s : List Char)
  | rubyS (base rt : List Char)
deriving DecidableEq

/-- `str(child)` for a ruby node: `<ruby>BASE<rt>READING</rt></ruby>`. -/
def rubyRender (b r : List Char) : List Char :=
  ['<', 'r', 'u', 'b', 'y', '>'] ++ b ++ ['<', 'r', 't', '>'] ++ r ++
    ['<', '/', 'r', 't', '>', '<', '/', 'r', 'u', 'b', 'y', '>']

/-- The string a span contributes to the output. -/
def RSpan.render : RSpan → List Char
  | .textS s => s
  | .rubyS b r => rubyRender b r

/-- `''.join(result)`. -/
def renderSpans (spans : List RSpan) : List Char := joinL (spans.map RSpan.render)

mutual

/-- One child of the loop of `extract_text_with_ruby`: plain text is
stripped and (when nonempty) routed through the annotator `ann` (the
composition of `add_furigana` with rendering), ruby nodes are appended
verbatim, block containers contribute their recursive content (wrapped in
newlines for paragraph-level tags) when it is not whitespace-only, `br`
yields a newline, and other tags contribute their recursive content when
not whitespace-only. -/
def walkNode (ann : List Char → List Char) : MNode → List RSpan
  | .textN s => if pyStrip s ≠ [] then [.textS (ann (pyStrip s))] else []
  | .rubyN b r => [.rubyS b r]
  | .blockN isPara cs =>
    if pyStrip (renderSpans (walkNodes ann cs)) ≠ [] then
      if isPara then .textS ['\n'] :: (walkNodes ann cs ++ [.textS ['\n']])
      else walkNodes ann cs
    else []
  | .brN => [.textS ['\n']]
  | .otherN cs =>
    if pyStrip (renderSpans (walkNodes ann cs)) ≠ [] then walkNodes ann cs else []

/-- The `for child in element.children` loop of
`extract_text_with_ruby`. -/
def walkNodes (ann : List Char → List Char) : List MNode → List RSpan
  | [] => []
  | n :: rest => walkNode ann n ++ walkNodes ann rest

end

/-- `extract_text_with_ruby` (string level). -/
def extract_text_with_ruby (ann : List Char → List Char) (ns : List MNode) : List Char :=
  renderSpans (walkNodes ann ns)

/-- `re.sub(r'\n{3,}', '\n\n', text)`: each maximal run of three or more
newlines is replaced by exactly two; `run` counts the newlines read so
far in the current run. -/
def collapseAux : Nat → List Char → List Char
  | run, [] => List.replicate (min run 2) '\n'
  | run, c :: rest =>
    if c = '\n' then collapseAux (run + 1) rest
    else List.replicate (min run 2) '\n' ++ c :: collapseAux 0 rest

/-- The newline-collapsing post-pass of `preserve_existing_ruby`. -/
def collapseNewlines (l : List Char) : List Char := collapseAux 0 l

/-- `preserve_existing_ruby`: walk, collapse newline runs, strip. -/
def preserve_existing_ruby (ann : List Char → List Char) (ns : List MNode) : List Char :=
  pyStrip (collapseNewlines (extract_text_with_ruby ann ns))

mutual

/-- The ruby nodes of a tree, in document order. -/
def rubyPairsNode : MNode → List (List Char × List Char)
  | .textN _ => []
  | .rubyN b r => [(b, r)]
  | .blockN _ cs => rubyPairsList cs
  | .brN => []
  | .otherN cs => rubyPairsList cs

/-- The ruby nodes of a child list, in document order. -/
def rubyPairsList : List MNode → List (List Char × List Char)
  | [] => []
  | n :: rest => rubyPairsNode n ++ rubyPairsList rest

end

/-- The ruby spans among the emitted spans, in emission order. -/
def rubiesOf (spans : List RSpan) : List (List Char × List Char) :=
  spans.filterMap fun sp =>
    match sp with
    | .rubyS b r => some (b, r)
    | .textS _ => none

theorem mem_dropWhile_of_mem {p : Char → Bool} :
    ∀ {xs : List Char} {x : Char}, x ∈ xs → p x = false → x ∈ xs.dropWhile p := by
  intro xs
  induction xs with
  | nil => intro x h; simp at h
  | cons y ys ih =>
    intro x hx hpx
    by_cases hy : p y = true
    · rw [List.dropWhile_cons_of_pos hy]
      rcases List.mem_cons.mp hx with rfl | h2
      · rw [hy] at hpx; simp at hpx
      · exact ih h2 hpx
    · rw [List.dropWhile_cons_of_neg hy]
      exact hx

theorem pyStrip_ne_nil_of_mem {l : List Char} {c : Char}
    (hc : c ∈ l) (hns : pyIsSpace c = false) : pyStrip l ≠ [] := by
  have h1 : c ∈ pyRstrip l := by
    unfold pyRstrip
    rw [List.mem_reverse]
    exact mem_dropWhile_of_mem (List.mem_reverse.mpr hc) hns
  have h2 : c ∈ pyStrip l := mem_dropWhile_of_mem h1 hns
  exact List.ne_nil_of_mem h2

theorem lt_mem_renderSpans {spans : List RSpan} {b r : List Char}
    (h : RSpan.rubyS b r ∈ spans) : '<' ∈ renderSpans spans := by
  unfold renderSpans joinL
  rw [List.mem_flatten]
  refine ⟨rubyRender b r, List.mem_map.mpr ⟨RSpan.rubyS b r, h, rfl⟩, ?_⟩
  simp [rubyRender]

theorem rubiesOf_ne_nil {spans : List RSpan} (h : rubiesOf spans ≠ []) :
    ∃ b r, RSpan.rubyS b r ∈ spans := by
  unfold rubiesOf at h
  obtain ⟨x, hx⟩ := List.exists_mem_of_ne_nil _ h
  obtain ⟨sp, hsp, hf⟩ := List.mem_filterMap.mp hx
  cases sp with
  | textS s => simp at hf
  | rubyS b r => exact ⟨b, r, hsp⟩

theorem pyStrip_renderSpans_ne_nil {spans : List RSpan}
    (h : rubiesOf spans ≠ []) : pyStrip (renderSpans spans) ≠ [] := by
  obtain ⟨b, r, hm⟩ := rubiesOf_ne_nil h
  exact pyStrip_ne_nil_of_mem (lt_mem_renderSpans hm) (by decide)

theorem rubiesOf_append (s1 s2 : List RSpan) :
    rubiesOf (s1 ++ s2) = rubiesOf s1 ++ rubiesOf s2 := by
  unfold rubiesOf
  exact List.filterMap_append ..

mutual

theorem rubies_walkNode (ann : List Char → List Char) (n : MNode) :
    rubiesOf (walkNode ann n) = rubyPairsNode n := by
  cases n with
  | textN s =>
    by_cases h : pyStrip s ≠ [] <;> simp [walkNode, rubyPairsNode, rubiesOf, h]
  | rubyN b r => simp [walkNode, rubyPairsNode, rubiesOf]
  | brN => simp [walkNode, rubyPairsNode, rubiesOf]
  | blockN isPara cs =>
    show rubiesOf (walkNode ann (.blockN isPara cs)) = rubyPairsList cs
    rw [walkNode]
    by_cases h : pyStrip (renderSpans (walkNodes ann cs)) ≠ []
    · rw [if_pos h]
      cases isPara with
      | true =>
        rw [if_pos (by rfl)]
        rw [show rubiesOf (RSpan.textS ['\n'] :: (walkNodes ann cs ++ [RSpan.textS ['\n']])) =
            rubiesOf ([RSpan.textS ['\n']] ++ (walkNodes ann cs ++ [RSpan.textS ['\n']]))
          from rfl]
        rw [rubiesOf_append, rubiesOf_append]
        simp only [rubiesOf, List.filterMap_cons, List.filterMap_nil]
        rw [List.nil_append, List.append_nil]
        exact rubies_walkNodes ann cs
      | false =>
        rw [if_neg (by simp)]
        exact rubies_walkNodes ann cs
    · rw [if_neg h]
      push_neg at h
      by_contra hne
      have hr : rubyPairsList cs ≠ [] := by
        intro h0
        rw [h0] at hne
        simp [rubiesOf] at hne
      rw [← rubies_walkNodes ann cs] at hr
      exact (pyStrip_renderSpans_ne_nil hr) h
  | otherN cs =>
    show rubiesOf (walkNode ann (.otherN cs)) = rubyPairsList cs
    rw [walkNode]
    by_cases h : pyStrip (renderSpans (walkNodes ann cs)) ≠ []
    · rw [if_pos h]
      exact rubies_walkNodes ann cs
    · rw [if_neg h]
      push_neg at h
      by_contra hne
      have hr : rubyPairsList cs ≠ [] := by
        intro h0
        rw [h0] at hne
        simp [rubiesOf] at hne
      rw [← rubies_walkNodes ann cs] at hr
      exact (pyStrip_renderSpans_ne_nil hr) h

theorem rubies_walkNodes (ann : List Char → List Char) (ns : List MNode) :
    rubiesOf (walkNodes ann ns) = rubyPairsList ns := by
  cases ns with
  | nil => simp [walkNodes, rubyPairsList, rubiesOf]
  | cons n rest =>
    rw [walkNodes, rubyPairsList, rubiesOf_append,
      rubies_walkNode ann n, rubies_walkNodes ann rest]

end

/-- C5 (counterexample): the walker's newline-collapsing post-pass can
alter the content of a pre-existing ruby node: a document consisting of
exactly one ruby node whose base contains three consecutive newlines
produces output in which that base appears with only two, so the node is
not emitted verbatim. -/
theorem C5_counterexample :
    preserve_existing_ruby (fun s => s)
        [MNode.rubyN ['あ', '\n', '\n', '\n', 'い'] ['よ']] =
      rubyRender ['あ', '\n', '\n', 'い'] ['よ'] ∧
      rubyRender ['あ', '\n', '\n', 'い'] ['よ'] ≠
        rubyRender ['あ', '\n', '\n', '\n', 'い'] ['よ'] := by
  constructor <;> decide

/-- C5 (amended): for every markup tree and every annotator, the
traversal stage of `preserve_existing_ruby` emits exactly the tree's
pre-existing ruby nodes, in document order, each exactly once with base
and reading unmodified, and never routes them through the annotator (the
emitted ruby spans do not depend on `ann`); only the final
newline-collapsing post-pass can alter ruby content, namely runs of three
or more newlines. -/
theorem C5_ruby_verbatim (ann : List Char → List Char) (ns : List MNode) :
    rubiesOf (walkNodes ann ns) = rubyPairsList ns :=
  rubies_walkNodes ann ns

/-! ## LineRepair (`fix-ruby-newlines.py`) -/

/-- `KANJI_PATTERN` of `fix-ruby-newlines.py` (`^[一-鿯㐀-䶿]{1,3}$`,
the same character class as `extract-ruby-smart.py`): a line of one to
three kanji. -/
def is13Kanji (l : List Char) : Bool :=
  decide (l ≠ []) && decide (l.length ≤ 3) && l.all isKanjiSmart

/-- `HIRAGANA_START` (`^[぀-ゟ]`, without the long-vowel mark). -/
def startsHira (l : List Char) : Bool :=
  match l.head? with
  | some c => 0x3040 ≤ c.toNat ∧ c.toNat ≤ 0x309F
  | none => false

/-- `KANJI_START`. -/
def startsKanji (l : List Char) : Bool :=
  match l.head? with
  | some c => isKanjiSmart c
  | none => false

/-- `KANJI_END` (`search` of `[class]$`: the last character). -/
def endsKanji (l : List Char) : Bool :=
  match l.getLast? with
  | some c => isKanjiSmart c
  | none => false

/-- Python `s.endswith(tuple)` for a tuple of single characters. -/
def endsWithOne (l : List Char) (set : List Char) : Bool :=
  match l.getLast? with
  | some c => c ∈ set
  | none => false

/-- `next_l.startswith(('<', '>', '＜', '＞'))` (the occasional extra
`'>>'` member is subsumed by `'>'`). -/
def startsMarkup (l : List Char) : Bool :=
  match l.head? with
  | some c => c ∈ ['<', '>', '＜', '＞']
  | none => false

/-- The `punctuation` tuple of both merge predicates. -/
def closePunct : List Char := ['。', '、', '」', '』', '）', ')', '！', '？', '…', '―']

/-- The `sentence_end` tuple. -/
def sentenceEnd : List Char := ['。', '」', '』', '）', ')', '！', '？']

/-- `should_merge_with_next(current_line, next_line)`. -/
def should_merge_with_next (curRaw nxtRaw : List Char) : Bool :=
  let cur := pyStrip curRaw
  let nxt := pyStrip nxtRaw
  if cur = [] ∨ nxt = [] then false
  else
    (is13Kanji cur && (startsHira nxt || is13Kanji nxt)) ||
    (is13Kanji nxt && !(endsWithOne cur closePunct) && !(startsMarkup nxt)) ||
    (endsKanji cur && startsHira nxt && !(startsMarkup nxt)) ||
    (!(endsWithOne cur sentenceEnd) && is13Kanji nxt && !(startsMarkup nxt)) ||
    (endsWithOne cur ['、'] && startsKanji nxt && !(startsMarkup nxt))

/-- `should_merge_with_prev(prev_line, current_line)`. -/
def should_merge_with_prev (prevRaw curRaw : List Char) : Bool :=
  let prev := pyStrip prevRaw
  let cur := pyStrip curRaw
  if prev = [] ∨ cur = [] then false
  else is13Kanji cur && !(endsWithOne prev closePunct) && !(startsMarkup cur)

/-- The inner `while i + 1 < len(lines) and should_merge_with_next(...)`
loop: repeatedly merge the current line with the following one; returns
the merged line, the remaining lines, and whether any merge happened. -/
def forwardMerge : List Char → List (List Char) → List Char × List (List Char) × Bool
  | cur, [] => (cur, [], false)
  | cur, nxt :: rest =>
    if should_merge_with_next cur nxt then
      ((forwardMerge (pyRstrip cur ++ pyStrip nxt) rest).1,
       (forwardMerge (pyRstrip cur ++ pyStrip nxt) rest).2.1,
       true)
    else (cur, nxt :: rest, false)

/-- One pass of `fix_ruby_newlines` (`while i < len(lines)`): `acc` is the
`result` list in reverse order (head = `result[-1]`), `ch` the `changed`
flag; the Python guard `i > 0 and result` is equivalent to `acc ≠ []`.
Each step consumes at least one line, so the loop is fueled with the line
count (the fuel-exhausted arm is never reached from `onePass`). -/
def passAux : Nat → List (List Char) → Bool → List (List Char) →
    List (List Char) × Bool
  | _, acc, ch, [] => (acc.reverse, ch)
  | 0, acc, ch, rest => (acc.reverse ++ rest, ch)
  | fuel + 1, [], ch, cur :: rest =>
    passAux fuel [(forwardMerge cur rest).1] (ch || (forwardMerge cur rest).2.2)
      (forwardMerge cur rest).2.1
  | fuel + 1, prev :: accTl, ch, cur :: rest =>
    if should_merge_with_prev prev cur then
      passAux fuel ((prev ++ pyStrip cur) :: accTl) true rest
    else
      passAux fuel ((forwardMerge cur rest).1 :: prev :: accTl)
        (ch || (forwardMerge cur rest).2.2) (forwardMerge cur rest).2.1

/-- One pass over the line list, returning the merged lines and the
`changed` flag. -/
def onePass (lines : List (List Char)) : List (List Char) × Bool :=
  passAux lines.length [] false lines

/-- The `for _ in range(max_passes)` loop with its `if not changed: break`:
runs passes (at most 5 from `fix_ruby_newlines`) until one reports no
change, returning the lines of the last executed pass. -/
def fixLoop : Nat → List (List Char) → List (List Char)
  | 0, lines => lines
  | n + 1, lines =>
    if (onePass lines).2 then fixLoop n (onePass lines).1 else (onePass lines).1

/-- Python `content.split('\n')`. -/
def splitNl : List Char → List (List Char)
  | [] => [[]]
  | c :: rest =>
    match splitNl rest with
    | [] => [[c]]
    | h :: t => if c = '\n' then [] :: h :: t else (c :: h) :: t

/-- Python `'\n'.join(lines)`. -/
def joinNl : List (List Char) → List Char
  | [] => []
  | [l] => l
  | l :: rest => l ++ '\n' :: joinNl rest

/-- `fix_ruby_newlines(content)` with `max_passes = 5`. -/
def fix_ruby_newlines (content : List Char) : List Char :=
  joinNl (fixLoop 5 (splitNl content))

theorem dropWhile_head_not (p : Char → Bool) (xs : List Char) :
    xs.dropWhile p = [] ∨
      ∃ h tl, xs.dropWhile p = h :: tl ∧ p h = false := by
  induction xs with
  | nil => exact Or.inl rfl
  | cons y ys ih =>
    by_cases hy : p y = true
    · rw [List.dropWhile_cons_of_pos hy]
      exact ih
    · rw [List.dropWhile_cons_of_neg hy]
      exact Or.inr ⟨y, ys, rfl, Bool.eq_false_iff.mpr hy⟩

theorem pyRstrip_eq_self {l : List Char} {c : Char}
    (hlast : l.getLast? = some c) (hc : pyIsSpace c = false) : pyRstrip l = l := by
  unfold pyRstrip
  cases hrev : l.reverse with
  | nil =>
    have : l = [] := by simpa using congrArg List.reverse hrev
    simp [this] at hlast
  | cons c2 tl =>
    have hc2 : c2 = c := by
      have h1 : l.reverse.head? = some c2 := by rw [hrev]; rfl
      rw [List.head?_reverse] at h1
      rw [hlast] at h1
      exact (Option.some.injEq .. ▸ h1).symm
    rw [List.dropWhile_cons_of_neg (by rw [hc2, hc]; simp)]
    rw [← hrev, List.reverse_reverse]

theorem pyLstrip_append {a : List Char} (b : List Char) (ha : pyLstrip a ≠ []) :
    pyLstrip (a ++ b) = pyLstrip a ++ b := by
  unfold pyLstrip at *
  induction a with
  | nil => simp at ha
  | cons x xs ih =>
    by_cases hx : pyIsSpace x = true
    · rw [List.cons_append, List.dropWhile_cons_of_pos hx]
      rw [List.dropWhile_cons_of_pos hx] at ha ⊢
      exact ih ha
    · rw [List.cons_append, List.dropWhile_cons_of_neg hx, List.dropWhile_cons_of_neg hx]
      simp

theorem pyStrip_head_not {l : List Char} (h : pyStrip l ≠ []) :
    ∃ c tl, pyStrip l = c :: tl ∧ pyIsSpace c = false := by
  unfold pyStrip pyLstrip at *
  rcases dropWhile_head_not pyIsSpace (pyRstrip l) with h1 | h1
  · exact absurd h1 h
  · exact h1

theorem pyRstrip_last_not {l : List Char} (h : pyRstrip l ≠ []) :
    ∃ c, (pyRstrip l).getLast? = some c ∧ pyIsSpace c = false := by
  unfold pyRstrip at *
  rcases dropWhile_head_not pyIsSpace l.reverse with h1 | h1
  · rw [h1] at h
    simp at h
  · obtain ⟨c, tl, hdec, hc⟩ := h1
    refine ⟨c, ?_, hc⟩
    rw [hdec]
    rw [List.getLast?_reverse]
    rfl

theorem getLast?_append_right {a b : List Char} (hb : b ≠ []) :
    (a ++ b).getLast? = b.getLast? := by
  induction a with
  | nil => rfl
  | cons x xs ih =>
    rw [List.cons_append, List.getLast?_cons]
    rw [ih]
    cases b with
    | nil => exact absurd rfl hb
    | cons y ys => simp [List.getLast?_cons]

theorem pyStrip_last_not {l : List Char} (h : pyStrip l ≠ []) :
    ∃ c, (pyStrip l).getLast? = some c ∧ pyIsSpace c = false := by
  have hr : pyRstrip l ≠ [] := by
    intro h0
    unfold pyStrip at h
    rw [h0] at h
    exact h rfl
  obtain ⟨c, hc, hcs⟩ := pyRstrip_last_not hr
  refine ⟨c, ?_, hcs⟩
  unfold pyStrip pyLstrip at *
  have hpre : (pyRstrip l).takeWhile pyIsSpace ++ (pyRstrip l).dropWhile pyIsSpace =
      pyRstrip l := List.takeWhile_append_dropWhile pyIsSpace (pyRstrip l)
  have h2 := getLast?_append_right (a := (pyRstrip l).takeWhile pyIsSpace)
    (b := (pyRstrip l).dropWhile pyIsSpace) h
  rw [hpre] at h2
  rw [← h2]
  exact hc

theorem pyStrip_append_strip {a b : List Char}
    (ha : pyStrip a ≠ []) (hb : pyStrip b ≠ []) :
    pyStrip (pyRstrip a ++ pyStrip b) = pyStrip a ++ pyStrip b := by
  obtain ⟨c, hcl, hcs⟩ := pyStrip_last_not hb
  have h1 : pyRstrip (pyRstrip a ++ pyStrip b) = pyRstrip a ++ pyStrip b := by
    refine pyRstrip_eq_self (c := c) ?_ hcs
    rw [getLast?_append_right hb, hcl]
  show pyLstrip (pyRstrip (pyRstrip a ++ pyStrip b)) = pyStrip a ++ pyStrip b
  rw [h1]
  have ha2 : pyLstrip (pyRstrip a) ≠ [] := ha
  rw [pyLstrip_append (pyStrip b) ha2]
  rfl

theorem startsHira_append {n0 : List Char} (s : List Char) (hn : n0 ≠ []) :
    startsHira (n0 ++ s) = startsHira n0 := by
  unfold startsHira
  cases n0 with
  | nil => exact absurd rfl hn
  | cons x xs => rfl

theorem startsKanji_append {n0 : List Char} (s : List Char) (hn : n0 ≠ []) :
    startsKanji (n0 ++ s) = startsKanji n0 := by
  unfold startsKanji
  cases n0 with
  | nil => exact absurd rfl hn
  | cons x xs => rfl

theorem startsMarkup_append {n0 : List Char} (s : List Char) (hn : n0 ≠ []) :
    startsMarkup (n0 ++ s) = startsMarkup n0 := by
  unfold startsMarkup
  cases n0 with
  | nil => exact absurd rfl hn
  | cons x xs => rfl

theorem is13Kanji_prefix {n0 s : List Char} (hn : n0 ≠ [])
    (h : is13Kanji (n0 ++ s) = true) : is13Kanji n0 = true := by
  unfold is13Kanji at *
  simp only [Bool.and_eq_true, decide_eq_true_eq, List.length_append,
    List.all_append, ne_eq] at *
  exact ⟨⟨hn, by omega⟩, h.2.1⟩

set_option maxHeartbeats 1000000 in
theorem should_merge_next_mono {c n m s : List Char}
    (hn : pyStrip n ≠ []) (hm : pyStrip m = pyStrip n ++ s)
    (h : should_merge_with_next c m = true) : should_merge_with_next c n = true := by
  unfold should_merge_with_next at *
  by_cases hg : pyStrip c = [] ∨ pyStrip m = []
  · rw [if_pos hg] at h
    exact absurd h (by simp)
  · rw [if_neg hg] at h
    push_neg at hg
    rw [if_neg (by push_neg; exact ⟨hg.1, hn⟩)]
    rw [hm, startsHira_append s hn, startsKanji_append s hn, startsMarkup_append s hn] at h
    by_cases hb1 : is13Kanji (pyStrip n ++ s) = true
    · have hb2 := is13Kanji_prefix hn hb1
      simp only [Bool.or_eq_true, Bool.and_eq_true, Bool.not_eq_true', hb1, hb2] at h ⊢
      tauto
    · have hb3 : is13Kanji (pyStrip n ++ s) = false := Bool.eq_false_iff.mpr hb1
      simp only [Bool.or_eq_true, Bool.and_eq_true, Bool.not_eq_true', hb3] at h ⊢
      tauto

theorem should_merge_prev_imp_next {p c : List Char}
    (h : should_merge_with_prev p c = true) : should_merge_with_next p c = true := by
  unfold should_merge_with_prev at h
  unfold should_merge_with_next
  by_cases hg : pyStrip p = [] ∨ pyStrip c = []
  · rw [if_pos hg] at h
    exact absurd h (by simp)
  · rw [if_neg hg] at h
    rw [if_neg hg]
    simp only [Bool.and_eq_true, Bool.not_eq_true'] at h
    simp only [Bool.or_eq_true, Bool.and_eq_true, Bool.not_eq_true']
    tauto

theorem should_merge_next_ne_nil {a b : List Char}
    (h : should_merge_with_next a b = true) : pyStrip a ≠ [] ∧ pyStrip b ≠ [] := by
  unfold should_merge_with_next at h
  by_cases hg : pyStrip a = [] ∨ pyStrip b = []
  · rw [if_pos hg] at h
    exact absurd h (by simp)
  · push_neg at hg
    exact hg

theorem forwardMerge_length (rest : List (List Char)) :
    ∀ cur, (forwardMerge cur rest).2.1.length ≤ rest.length := by
  induction rest with
  | nil => intro cur; simp [forwardMerge]
  | cons nxt rest2 ih =>
    intro cur
    unfold forwardMerge
    by_cases hm : should_merge_with_next cur nxt = true
    · rw [if_pos hm]
      exact Nat.le_trans (ih _) (Nat.le_succ _)
    · rw [if_neg hm]

theorem forwardMerge_exit (rest : List (List Char)) :
    ∀ cur x xs, (forwardMerge cur rest).2.1 = x :: xs →
      should_merge_with_next (forwardMerge cur rest).1 x = false := by
  induction rest with
  | nil => intro cur x xs h; simp [forwardMerge] at h
  | cons nxt rest2 ih =>
    intro cur x xs h
    unfold forwardMerge at h ⊢
    by_cases hm : should_merge_with_next cur nxt = true
    · rw [if_pos hm] at h ⊢
      exact ih _ x xs h
    · rw [if_neg hm] at h ⊢
      have hx : nxt = x := by
        have := congrArg List.head? h
        simpa using this
      rw [← hx]
      exact Bool.eq_false_iff.mpr hm

theorem forwardMerge_strip (rest : List (List Char)) :
    ∀ cur, (forwardMerge cur rest).1 = cur ∨
      (pyStrip cur ≠ [] ∧ ∃ s, s ≠ [] ∧
        pyStrip (forwardMerge cur rest).1 = pyStrip cur ++ s) := by
  induction rest with
  | nil => intro cur; exact Or.inl rfl
  | cons nxt rest2 ih =>
    intro cur
    unfold forwardMerge
    by_cases hm : should_merge_with_next cur nxt = true
    · rw [if_pos hm]
      obtain ⟨hcur, hnxt⟩ := should_merge_next_ne_nil hm
      have hstep : pyStrip (pyRstrip cur ++ pyStrip nxt) = pyStrip cur ++ pyStrip nxt :=
        pyStrip_append_strip hcur hnxt
      refine Or.inr ⟨hcur, ?_⟩
      rcases ih (pyRstrip cur ++ pyStrip nxt) with h1 | ⟨h2, s2, hs2, hstrip⟩
      · exact ⟨pyStrip nxt, hnxt, by rw [h1, hstep]⟩
      · refine ⟨pyStrip nxt ++ s2, by simp [hnxt], ?_⟩
        rw [hstrip, hstep, List.append_assoc]
    · rw [if_neg hm]
      exact Or.inl rfl

theorem passAux_nil (fuel : Nat) (acc : List (List Char)) (ch : Bool) :
    passAux fuel acc ch [] = (acc.reverse, ch) := by
  cases fuel <;> cases acc <;> rfl

theorem forwardMerge_no_merge {cur : List Char} {rest : List (List Char)}
    (h : rest = [] ∨ ∀ x ∈ rest.head?, should_merge_with_next cur x = false) :
    forwardMerge cur rest = (cur, rest, false) := by
  cases rest with
  | nil => rfl
  | cons x xs =>
    rcases h with h | h
    · simp at h
    · have hx : should_merge_with_next cur x = false := h x rfl
      unfold forwardMerge
      rw [if_neg (by rw [hx]; simp)]

theorem passAux_no_merge (lines : List (List Char)) :
    ∀ (fuel : Nat) (acc : List (List Char)) (ch : Bool),
      List.Chain' (fun a b => should_merge_with_next a b = false) lines →
      (∀ a x, acc.head? = some a → lines.head? = some x →
        should_merge_with_next a x = false) →
      passAux fuel acc ch lines = (acc.reverse ++ lines, ch) := by
  induction lines with
  | nil =>
    intro fuel acc ch _ _
    cases fuel <;> simp [passAux]
  | cons cur rest ih =>
    intro fuel acc ch hchain hint
    have hcr : rest = [] ∨ ∀ x ∈ rest.head?, should_merge_with_next cur x = false := by
      cases rest with
      | nil => exact Or.inl rfl
      | cons x xs =>
        refine Or.inr ?_
        intro y hy
        simp only [List.head?_cons, Option.mem_def, Option.some.injEq] at hy
        rw [← hy]
        exact (List.chain'_cons.mp hchain).1
    have hfwd : forwardMerge cur rest = (cur, rest, false) := forwardMerge_no_merge hcr
    have htl : List.Chain' (fun a b => should_merge_with_next a b = false) rest :=
      (List.chain'_cons'.mp hchain).2
    cases fuel with
    | zero => rfl
    | succ f =>
      cases acc with
      | nil =>
        show passAux f [(forwardMerge cur rest).1] (ch || (forwardMerge cur rest).2.2)
            (forwardMerge cur rest).2.1 = _
        rw [hfwd]
        simp only [Bool.or_false]
        rw [ih f [cur] ch htl ?_]
        · simp
        · intro a x ha hx
          simp only [List.head?_cons, Option.some.injEq] at ha
          rw [← ha]
          rcases hcr with h | h
          · rw [h] at hx; simp at hx
          · exact h x hx
      | cons prev accTl =>
        have hprev : should_merge_with_prev prev cur = false := by
          by_cases hp : should_merge_with_prev prev cur = true
          · have := should_merge_prev_imp_next hp
            rw [hint prev cur rfl rfl] at this
            simp at this
          · exact Bool.eq_false_iff.mpr hp
        show (if should_merge_with_prev prev cur then _ else _) = _
        rw [if_neg (by rw [hprev]; simp)]
        rw [hfwd]
        simp only [Bool.or_false]
        rw [ih f (cur :: prev :: accTl) ch htl ?_]
        · simp
        · intro a x ha hx
          simp only [List.head?_cons, Option.some.injEq] at ha
          rw [← ha]
          rcases hcr with h | h
          · rw [h] at hx; simp at hx
          · exact h x hx

theorem passAux_chain (fuel : Nat) :
    ∀ (lines acc : List (List Char)) (ch : Bool),
      lines.length ≤ fuel →
      List.Chain' (fun a b => should_merge_with_next b a = false) acc →
      (∀ a x, acc.head? = some a → lines.head? = some x →
        should_merge_with_next a x = false) →
      List.Chain' (fun a b => should_merge_with_next a b = false)
        (passAux fuel acc ch lines).1 := by
  induction fuel with
  | zero =>
    intro lines acc ch hlen hacc _
    have h0 : lines = [] := List.length_eq_zero.mp (Nat.le_zero.mp hlen)
    subst h0
    show List.Chain' _ acc.reverse
    rw [List.chain'_reverse]
    exact hacc
  | succ f ih =>
    intro lines acc ch hlen hacc hint
    cases lines with
    | nil =>
      rw [passAux_nil]
      show List.Chain' _ acc.reverse
      rw [List.chain'_reverse]
      exact hacc
    | cons cur rest =>
      have hlen2 : (forwardMerge cur rest).2.1.length ≤ f :=
        Nat.le_trans (forwardMerge_length rest cur)
          (by simpa using Nat.succ_le_succ_iff.mp hlen)
      have hintm : ∀ x, (forwardMerge cur rest).2.1.head? = some x →
          should_merge_with_next (forwardMerge cur rest).1 x = false := by
        intro x hx
        cases h2 : (forwardMerge cur rest).2.1 with
        | nil => rw [h2] at hx; simp at hx
        | cons y ys =>
          rw [h2] at hx
          simp only [List.head?_cons, Option.some.injEq] at hx
          rw [← hx]
          exact forwardMerge_exit rest cur y ys h2
      cases acc with
      | nil =>
        show List.Chain' _ (passAux f [(forwardMerge cur rest).1]
          (ch || (forwardMerge cur rest).2.2) (forwardMerge cur rest).2.1).1
        refine ih _ _ _ hlen2 (List.chain'_singleton _) ?_
        intro a x ha hx
        simp only [List.head?_cons, Option.some.injEq] at ha
        rw [← ha]
        exact hintm x hx
      | cons prev accTl =>
        have hpc : should_merge_with_next prev cur = false := hint prev cur rfl rfl
        have hprevF : should_merge_with_prev prev cur = false := by
          by_cases hp : should_merge_with_prev prev cur = true
          · have h3 := should_merge_prev_imp_next hp
            rw [hpc] at h3
            simp at h3
          · exact Bool.eq_false_iff.mpr hp
        have hm : should_merge_with_next prev (forwardMerge cur rest).1 = false := by
          by_cases hx : should_merge_with_next prev (forwardMerge cur rest).1 = true
          · rcases forwardMerge_strip rest cur with heq | ⟨hcne, s, _, hstrip⟩
            · rw [heq, hpc] at hx
              simp at hx
            · have h4 := should_merge_next_mono hcne hstrip hx
              rw [hpc] at h4
              simp at h4
          · exact Bool.eq_false_iff.mpr hx
        show List.Chain' _ ((if should_merge_with_prev prev cur then
            passAux f ((prev ++ pyStrip cur) :: accTl) true rest
          else
            passAux f ((forwardMerge cur rest).1 :: prev :: accTl)
              (ch || (forwardMerge cur rest).2.2) (forwardMerge cur rest).2.1)).1
        rw [if_neg (by rw [hprevF]; simp)]
        refine ih _ _ _ hlen2 ?_ ?_
        · exact List.chain'_cons'.mpr ⟨fun y hy => by
            simp only [List.head?_cons, Option.mem_def, Option.some.injEq] at hy
            rw [← hy]
            exact hm, hacc⟩
        · intro a x ha hx
          simp only [List.head?_cons, Option.some.injEq] at ha
          rw [← ha]
          exact hintm x hx

theorem fixLoop_succ (n : Nat) (lines : List (List Char)) :
    fixLoop (n + 1) lines =
      if (onePass lines).2 then fixLoop n (onePass lines).1 else (onePass lines).1 := rfl

theorem onePass_chain (lines : List (List Char)) :
    List.Chain' (fun a b => should_merge_with_next a b = false) (onePass lines).1 := by
  unfold onePass
  refine passAux_chain lines.length lines [] false (Nat.le_refl _) List.chain'_nil ?_
  intro a x ha
  simp at ha

theorem onePass_of_chain {r : List (List Char)}
    (h : List.Chain' (fun a b => should_merge_with_next a b = false) r) :
    onePass r = (r, false) := by
  unfold onePass
  rw [passAux_no_merge r r.length [] false h (by intro a x ha; simp at ha)]
  simp

theorem onePass_idem (lines : List (List Char)) :
    onePass (onePass lines).1 = ((onePass lines).1, false) :=
  onePass_of_chain (onePass_chain lines)

theorem fixLoop_stable {x : List (List Char)} (h : onePass x = (x, false)) :
    ∀ n, fixLoop n x = x := by
  intro n
  cases n with
  | zero => rfl
  | succ m =>
    rw [fixLoop_succ, h]
    simp

theorem fixLoop_out (n : Nat) :
    ∀ lines, onePass (fixLoop (n + 1) lines) = (fixLoop (n + 1) lines, false) := by
  induction n with
  | zero =>
    intro lines
    have h1 : fixLoop 1 lines = (onePass lines).1 := by
      rw [fixLoop_succ]
      by_cases hc : (onePass lines).2 = true
      · rw [if_pos hc]
        rfl
      · rw [if_neg (by rw [Bool.eq_false_iff.mpr hc]; simp)]
    rw [h1]
    exact onePass_idem lines
  | succ m ih =>
    intro lines
    rw [fixLoop_succ]
    by_cases hc : (onePass lines).2 = true
    · rw [if_pos hc]
      exact ih _
    · rw [if_neg (by rw [Bool.eq_false_iff.mpr hc]; simp)]
      exact onePass_idem lines

theorem fixLoop5_idem (lines : List (List Char)) :
    fixLoop 5 (fixLoop 5 lines) = fixLoop 5 lines :=
  fixLoop_stable (fixLoop_out 4 lines) 5

theorem mem_of_dropWhile {p : Char → Bool} :
    ∀ {xs : List Char} {x : Char}, x ∈ xs.dropWhile p → x ∈ xs := by
  intro xs
  induction xs with
  | nil => intro x h; simp [List.dropWhile] at h
  | cons y ys ih =>
    intro x h
    by_cases hy : p y = true
    · rw [List.dropWhile_cons_of_pos hy] at h
      exact List.mem_cons_of_mem y (ih h)
    · rw [List.dropWhile_cons_of_neg hy] at h
      exact h

theorem mem_of_pyRstrip {l : List Char} {c : Char} (h : c ∈ pyRstrip l) : c ∈ l := by
  unfold pyRstrip at h
  rw [List.mem_reverse] at h
  exact List.mem_reverse.mp (mem_of_dropWhile h)

theorem mem_of_pyStrip {l : List Char} {c : Char} (h : c ∈ pyStrip l) : c ∈ l := by
  unfold pyStrip pyLstrip at h
  exact mem_of_pyRstrip (mem_of_dropWhile h)

theorem forwardMerge_nl (rest : List (List Char)) :
    ∀ cur, '\n' ∉ cur → (∀ l ∈ rest, '\n' ∉ l) →
      '\n' ∉ (forwardMerge cur rest).1 ∧
        ∀ l ∈ (forwardMerge cur rest).2.1, '\n' ∉ l := by
  induction rest with
  | nil =>
    intro cur hcur _
    exact ⟨hcur, by simp [forwardMerge]⟩
  | cons nxt rest2 ih =>
    intro cur hcur hall
    unfold forwardMerge
    by_cases hm : should_merge_with_next cur nxt = true
    · rw [if_pos hm]
      have hcur2 : '\n' ∉ pyRstrip cur ++ pyStrip nxt := by
        intro hmem
        rcases List.mem_append.mp hmem with h1 | h2
        · exact hcur (mem_of_pyRstrip h1)
        · exact hall nxt (by simp) (mem_of_pyStrip h2)
      exact ih _ hcur2 (fun l hl => hall l (by simp [hl]))
    · rw [if_neg hm]
      refine ⟨hcur, ?_⟩
      intro l hl
      rcases List.mem_cons.mp hl with rfl | h2
      · exact hall l (by simp)
      · exact hall l (by simp [h2])

theorem passAux_nl (fuel : Nat) :
    ∀ (lines acc : List (List Char)) (ch : Bool),
      (∀ l ∈ acc, '\n' ∉ l) → (∀ l ∈ lines, '\n' ∉ l) →
      ∀ l ∈ (passAux fuel acc ch lines).1, '\n' ∉ l := by
  induction fuel with
  | zero =>
    intro lines acc ch hacc hlines l hl
    cases lines with
    | nil =>
      rw [passAux_nil] at hl
      exact hacc l (List.mem_reverse.mp hl)
    | cons cur rest =>
      show '\n' ∉ l
      have hl2 : l ∈ acc.reverse ++ cur :: rest := hl
      rcases List.mem_append.mp hl2 with h1 | h2
      · exact hacc l (List.mem_reverse.mp h1)
      · exact hlines l h2
  | succ f ih =>
    intro lines acc ch hacc hlines l hl
    cases lines with
    | nil =>
      rw [passAux_nil] at hl
      exact hacc l (List.mem_reverse.mp hl)
    | cons cur rest =>
      have hcur : '\n' ∉ cur := hlines cur (by simp)
      have hrest : ∀ q ∈ rest, '\n' ∉ q := fun q hq => hlines q (by simp [hq])
      obtain ⟨hm1, hm2⟩ := forwardMerge_nl rest cur hcur hrest
      cases acc with
      | nil =>
        refine ih _ _ _ ?_ hm2 l hl
        intro q hq
        simp only [List.mem_singleton] at hq
        rw [hq]
        exact hm1
      | cons prev accTl =>
        have hl2 : l ∈ (if should_merge_with_prev prev cur then
            passAux f ((prev ++ pyStrip cur) :: accTl) true rest
          else
            passAux f ((forwardMerge cur rest).1 :: prev :: accTl)
              (ch || (forwardMerge cur rest).2.2) (forwardMerge cur rest).2.1).1 := hl
        by_cases hp : should_merge_with_prev prev cur = true
        · rw [if_pos hp] at hl2
          refine ih _ _ _ ?_ hrest l hl2
          intro q hq
          rcases List.mem_cons.mp hq with rfl | h2
          · intro hmem
            rcases List.mem_append.mp hmem with ha | hb
            · exact hacc prev (by simp) ha
            · exact hcur (mem_of_pyStrip hb)
          · exact hacc q (by simp [h2])
        · rw [if_neg (by rw [Bool.eq_false_iff.mpr hp]; simp)] at hl2
          refine ih _ _ _ ?_ hm2 l hl2
          intro q hq
          rcases List.mem_cons.mp hq with rfl | h2
          · exact hm1
          · exact hacc q h2

theorem passAux_ne_nil (fuel : Nat) :
    ∀ (lines acc : List (List Char)) (ch : Bool),
      acc ≠ [] ∨ lines ≠ [] → (passAux fuel acc ch lines).1 ≠ [] := by
  induction fuel with
  | zero =>
    intro lines acc ch hor
    cases lines with
    | nil =>
      rw [passAux_nil]
      rcases hor with h | h
      · simpa using h
      · exact absurd rfl h
    | cons cur rest =>
      show acc.reverse ++ cur :: rest ≠ []
      simp
  | succ f ih =>
    intro lines acc ch hor
    cases lines with
    | nil =>
      rw [passAux_nil]
      rcases hor with h | h
      · simpa using h
      · exact absurd rfl h
    | cons cur rest =>
      cases acc with
      | nil =>
        exact ih _ _ _ (Or.inl (by simp))
      | cons prev accTl =>
        show (if should_merge_with_prev prev cur then
            passAux f ((prev ++ pyStrip cur) :: accTl) true rest
          else
            passAux f ((forwardMerge cur rest).1 :: prev :: accTl)
              (ch || (forwardMerge cur rest).2.2) (forwardMerge cur rest).2.1).1 ≠ []
        by_cases hp : should_merge_with_prev prev cur = true
        · rw [if_pos hp]
          exact ih _ _ _ (Or.inl (by simp))
        · rw [if_neg (by rw [Bool.eq_false_iff.mpr hp]; simp)]
          exact ih _ _ _ (Or.inl (by simp))

theorem fixLoop_nl (n : Nat) :
    ∀ lines, (∀ l ∈ lines, '\n' ∉ l) → ∀ l ∈ fixLoop n lines, '\n' ∉ l := by
  induction n with
  | zero => intro lines h; exact h
  | succ m ih =>
    intro lines h
    rw [fixLoop_succ]
    by_cases hc : (onePass lines).2 = true
    · rw [if_pos hc]
      exact ih _ (passAux_nl lines.length lines [] false (by simp) h)
    · rw [if_neg (by rw [Bool.eq_false_iff.mpr hc]; simp)]
      exact passAux_nl lines.length lines [] false (by simp) h

theorem fixLoop_ne_nil (n : Nat) :
    ∀ lines, lines ≠ [] → fixLoop n lines ≠ [] := by
  induction n with
  | zero => intro lines h; exact h
  | succ m ih =>
    intro lines h
    rw [fixLoop_succ]
    by_cases hc : (onePass lines).2 = true
    · rw [if_pos hc]
      exact ih _ (passAux_ne_nil lines.length lines [] false (Or.inr h))
    · rw [if_neg (by rw [Bool.eq_false_iff.mpr hc]; simp)]
      exact passAux_ne_nil lines.length lines [] false (Or.inr h)

theorem splitNl_ne_nil (l : List Char) : splitNl l ≠ [] := by
  induction l with
  | nil => simp [splitNl]
  | cons c rest ih =>
    unfold splitNl
    cases hs : splitNl rest with
    | nil => exact absurd hs ih
    | cons h t =>
      by_cases hc : c = '\n' <;> simp [hc]

theorem splitNl_nl_free (l : List Char) : ∀ p ∈ splitNl l, '\n' ∉ p := by
  induction l with
  | nil =>
    intro p hp
    simp only [splitNl, List.mem_singleton] at hp
    simp [hp]
  | cons c rest ih =>
    intro p hp
    unfold splitNl at hp
    cases hs : splitNl rest with
    | nil => exact absurd hs (splitNl_ne_nil rest)
    | cons h t =>
      rw [hs] at hp
      have hp2 : p ∈ (if c = '\n' then [] :: h :: t else (c :: h) :: t) := hp
      by_cases hc : c = '\n'
      · rw [if_pos hc] at hp2
        rcases List.mem_cons.mp hp2 with rfl | h2
        · simp
        · exact ih p (by rw [hs]; exact h2)
      · rw [if_neg hc] at hp2
        rcases List.mem_cons.mp hp2 with rfl | h2
        · intro hmem
          rcases List.mem_cons.mp hmem with h3 | h4
          · exact hc h3.symm
          · exact ih h (by rw [hs]; simp) h4
        · exact ih p (by rw [hs]; exact List.mem_cons_of_mem h h2)

theorem joinNl_splitNl (l : List Char) : joinNl (splitNl l) = l := by
  induction l with
  | nil => rfl
  | cons c rest ih =>
    unfold splitNl
    cases hs : splitNl rest with
    | nil => exact absurd hs (splitNl_ne_nil rest)
    | cons h t =>
      rw [hs] at ih
      show joinNl (if c = '\n' then [] :: h :: t else (c :: h) :: t) = c :: rest
      by_cases hc : c = '\n'
      · rw [if_pos hc, hc]
        show '\n' :: joinNl (h :: t) = '\n' :: rest
        rw [ih]
      · rw [if_neg hc]
        cases t with
        | nil =>
          show c :: h = c :: rest
          rw [show joinNl [h] = h from rfl] at ih
          rw [ih]
        | cons h2 t2 =>
          show (c :: h) ++ '\n' :: joinNl (h2 :: t2) = c :: rest
          rw [show joinNl (h :: h2 :: t2) = h ++ '\n' :: joinNl (h2 :: t2) from rfl] at ih
          rw [List.cons_append, ih]

theorem splitNl_no_nl {l : List Char} (h : '\n' ∉ l) : splitNl l = [l] := by
  induction l with
  | nil => rfl
  | cons c rest ih =>
    unfold splitNl
    have hrest : '\n' ∉ rest := fun h2 => h (List.mem_cons_of_mem c h2)
    rw [ih hrest]
    show (if c = '\n' then [] :: [rest] else [c :: rest]) = [c :: rest]
    rw [if_neg (by intro hc; exact h (by rw [hc]; simp))]

theorem splitNl_cons_eq (c : Char) (r : List Char) :
    splitNl (c :: r) =
      match splitNl r with
      | [] => [[c]]
      | h :: t => if c = '\n' then [] :: h :: t else (c :: h) :: t := rfl

theorem splitNl_append {a : List Char} (b : List Char) (ha : '\n' ∉ a) :
    splitNl (a ++ '\n' :: b) = a :: splitNl b := by
  induction a with
  | nil =>
    show splitNl ('\n' :: b) = [] :: splitNl b
    rw [splitNl_cons_eq]
    cases hs : splitNl b with
    | nil => exact absurd hs (splitNl_ne_nil b)
    | cons h t =>
      show (if ('\n' : Char) = '\n' then [] :: h :: t else ('\n' :: h) :: t) = [] :: h :: t
      rw [if_pos rfl]
  | cons c a2 ih =>
    have ha2 : '\n' ∉ a2 := fun h2 => ha (List.mem_cons_of_mem c h2)
    have hc : c ≠ '\n' := fun hc => ha (by rw [hc]; simp)
    show splitNl (c :: (a2 ++ '\n' :: b)) = (c :: a2) :: splitNl b
    rw [splitNl_cons_eq, ih ha2]
    show (if c = '\n' then [] :: a2 :: splitNl b else (c :: a2) :: splitNl b) =
      (c :: a2) :: splitNl b
    rw [if_neg hc]

theorem splitNl_joinNl (ls : List (List Char)) :
    ls ≠ [] → (∀ l ∈ ls, '\n' ∉ l) → splitNl (joinNl ls) = ls := by
  induction ls with
  | nil => intro h _; exact absurd rfl h
  | cons l rest ih =>
    intro _ hfree
    cases rest with
    | nil =>
      show splitNl (joinNl [l]) = [l]
      rw [show joinNl [l] = l from rfl]
      exact splitNl_no_nl (hfree l (by simp))
    | cons h2 t2 =>
      show splitNl (l ++ '\n' :: joinNl (h2 :: t2)) = l :: h2 :: t2
      rw [splitNl_append (joinNl (h2 :: t2)) (hfree l (by simp))]
      rw [ih (by simp) (fun q hq => hfree q (by simp [hq]))]

/-- C6: `fix_ruby_newlines` is idempotent, and on text where no merge rule
applies between any two consecutive lines it returns the input unchanged.
After any pass the output lines are pairwise non-mergeable (each forward
merge stops only when `should_merge_with_next` fails for the merged line,
failing merges stay failing when the right line is later extended at its
end, and the backward-merge condition is a sub-condition of the forward
one), so a second application's first pass reports no change and the loop
stops immediately. -/
theorem C6_repair_idempotent :
    (∀ content : List Char,
      fix_ruby_newlines (fix_ruby_newlines content) = fix_ruby_newlines content) ∧
      (∀ content : List Char,
        List.Chain' (fun a b => should_merge_with_next a b = false) (splitNl content) →
        fix_ruby_newlines content = content) := by
  constructor
  · intro content
    unfold fix_ruby_newlines
    have hsplit : splitNl (joinNl (fixLoop 5 (splitNl content))) =
        fixLoop 5 (splitNl content) := by
      refine splitNl_joinNl _ ?_ ?_
      · exact fixLoop_ne_nil 5 _ (splitNl_ne_nil content)
      · exact fixLoop_nl 5 _ (splitNl_nl_free content)
    rw [hsplit, fixLoop5_idem]
  · intro content hchain
    unfold fix_ruby_newlines
    have h1 : onePass (splitNl content) = (splitNl content, false) :=
      onePass_of_chain hchain
    have h2 : fixLoop 5 (splitNl content) = splitNl content := by
      rw [fixLoop_succ, h1]
      simp
    rw [h2, joinNl_splitNl]

/-- C6 (witness). -/
theorem C6_repair_idempotent_witness :
    List.Chain' (fun a b => should_merge_with_next a b = false)
        (splitNl ['あ', '。', '\n', 'ば']) ∧
      fix_ruby_newlines ['あ', '。', '\n', 'ば'] = ['あ', '。', '\n', 'ば'] := by
  have hsp : splitNl ['あ', '。', '\n', 'ば'] = [['あ', '。'], ['ば']] := by decide
  have hchain : List.Chain' (fun a b => should_merge_with_next a b = false)
      [['あ', '。'], ['ば']] := by
    refine List.chain'_cons.mpr ⟨?_, List.chain'_singleton _⟩
    decide
  have hchain2 : List.Chain' (fun a b => should_merge_with_next a b = false)
      (splitNl ['あ', '。', '\n', 'ば']) := by
    rw [hsp]
    exact hchain
  exact ⟨hchain2, C6_repair_idempotent.2 ['あ', '。', '\n', 'ば'] hchain2⟩
